import Mathlib

/-!
Verification of the form-data transcoding and schema constraint extraction
core of the react-server-actions repository.

The embedding mirrors the source files
`packages/react-server-actions/src/server/decode_form.ts` and
`packages/react-server-actions/src/client/helpers.ts`.

Modelling conventions:
* JavaScript runtime values appearing in decoded form data are modelled by
  `JSValue`; `FormData` entry values (string or File) by `FormValue`.
* JavaScript objects are modelled as insertion-ordered association lists
  with unique keys.  Property read, write and delete follow the own-property
  semantics of plain objects; prototype-chain lookups are not modelled.
* The source files are ES modules, hence strict mode: assigning a property
  on a primitive value throws a TypeError.  Fallible operations return
  `Except`.
* JavaScript numbers occurring as schema check parameters are modelled as
  integers; Date values do not occur in the claims and are omitted from the
  value model.
-/

set_option linter.unusedVariables false

namespace RSA

/-! ### Association-list primitives (JS plain-object semantics) -/

/-- Own-property read of key `k`. -/
def alook {α : Type} (k : String) : List (String × α) → Option α
  | [] => none
  | (k', v) :: rest => if k' = k then some v else alook k rest

/-- Property write: updates an existing binding in place, otherwise appends
at the end (JS insertion-order semantics). -/
def aset {α : Type} (k : String) (v : α) : List (String × α) → List (String × α)
  | [] => [(k, v)]
  | (k', v') :: rest => if k' = k then (k, v) :: rest else (k', v') :: aset k v rest

/-- Property delete. -/
def adel {α : Type} (k : String) : List (String × α) → List (String × α)
  | [] => []
  | (k', v') :: rest => if k' = k then adel k rest else (k', v') :: adel k rest

/-- In-place update of the value bound to `k` (no effect if `k` is absent). -/
def aupd {α : Type} (k : String) (f : α → α) : List (String × α) → List (String × α)
  | [] => []
  | (k', v') :: rest => if k' = k then (k', f v') :: rest else (k', v') :: aupd k f rest

/-- `Reflect.has` on a plain object. -/
def hasKey {α : Type} (data : List (String × α)) (k : String) : Bool :=
  data.any (fun p => p.1 = k)

/-! ### The value model -/

/-- A raw `FormData` entry value: a text value or an opaque binary
attachment (`File`) with observable name and size. -/
inductive FormValue : Type where
  | text (s : String)
  | file (name : String) (size : Nat)
deriving DecidableEq, Repr

/-- A JavaScript runtime value as it occurs in decoded form data. -/
inductive JSValue : Type where
  | str (s : String)
  | file (name : String) (size : Nat)
  | undef
  | null
  | arr (elems : List JSValue)
  | obj (fields : List (String × JSValue))
deriving Repr

/-- Embedding of a raw entry value into the runtime value model. -/
def FormValue.toJS : FormValue → JSValue
  | .text s => .str s
  | .file n z => .file n z

/-- JS truthiness of `value && value.toString().length` for a FormData
value: the empty string is falsy, a nonempty string truthy, and a `File`
is an object whose `toString()` is nonempty, hence always truthy. -/
def FormValue.truthyLen : FormValue → Bool
  | .text s => ¬ s = ""
  | .file _ _ => true

/-- JS truthiness of a decoded value (no numbers or booleans occur). -/
def JSValue.truthy : JSValue → Bool
  | .str s => ¬ s = ""
  | .file _ _ => true
  | .undef => false
  | .null => false
  | .arr _ => true
  | .obj _ => true

/-! ### Dot-separated paths: `key.split('.')` and `segments.join('.')` -/

/-- Character-level split on the separator `'.'`; always returns a nonempty
list of separator-free segments, like JS `String.prototype.split('.')`. -/
def splitDotChars : List Char → List (List Char)
  | [] => [[]]
  | c :: rest =>
    match splitDotChars rest with
    | seg :: segs => if c = '.' then [] :: seg :: segs else (c :: seg) :: segs
    | [] => [[]]

/-- `key.split('.')`. -/
def splitDot (s : String) : List String :=
  (splitDotChars s.data).map String.mk

/-- `segments.join('.')`. -/
def joinDot : List String → String
  | [] => ""
  | [s] => s
  | s :: t :: rest => s ++ "." ++ joinDot (t :: rest)

/-- `key.includes('.')`. -/
def containsDot (s : String) : Bool :=
  decide ('.' ∈ s.data)

/-! ### The decoder (`decodeFormData` in decode_form.ts) -/

/-- The runtime empty-value policy.  The declared TS union is
`'undefined' | 'null' | 'empty-string'`, but at runtime any string can be
passed (the tests pass an unrecognized value on purpose), so the model uses
`String`. -/
abbrev ConvertEmptyToValue := String

/-- What the first occurrence of a key stores: the value itself when
`value && value.toString().length` is truthy, otherwise the policy
conversion of the (necessarily empty text) value. -/
def storeFirst (convertEmptyTo : ConvertEmptyToValue) (value : FormValue) : RSA.JSValue :=
  if value.truthyLen then value.toJS
  else
    if convertEmptyTo = "undefined" then .undef
    else if convertEmptyTo = "null" then .null
    else if convertEmptyTo = "empty-string" then .str ""
    else value.toJS

/-- Append a later occurrence of a key: wrap a non-array current value into
a singleton array, then push. -/
def pushValue (cur : JSValue) (value : FormValue) : JSValue :=
  match cur with
  | .arr l => .arr (l ++ [value.toJS])
  | c => .arr [c, value.toJS]

/-- The body of the `formData.forEach` loop. -/
def decodeStep (convertEmptyTo : ConvertEmptyToValue) (data : List (String × JSValue))
    (kv : String × FormValue) : List (String × JSValue) :=
  if ¬ hasKey data kv.1 then
    data ++ [(kv.1, storeFirst convertEmptyTo kv.2)]
  else
    aupd kv.1 (fun cur => pushValue cur kv.2) data

/-- The first pass of `decodeFormData`: the `forEach` over all entries in
insertion order. -/
def decodePass1 (entries : List (String × FormValue))
    (convertEmptyTo : ConvertEmptyToValue) : List (String × JSValue) :=
  entries.foldl (decodeStep convertEmptyTo) []

/-- Failures of the dot-path rewrite pass. -/
inductive DecodeErr : Type where
  /-- Strict-mode TypeError: property assignment with a string primitive as
  the target. -/
  | typeError
  /-- Property assignment with an array or File target.  Real JS attaches an
  expando property there, outside the decoded-object data model; the model
  marks the outcome distinctly.  No theorem below depends on this branch. -/
  | nonPlainTarget
deriving DecidableEq, Repr

/-- The walk/assign of the rewrite pass for one dotted key:
`for (const k of keys) { if (!obj[k]) obj[k] = {}; obj = obj[k]; }` followed
by `obj[lastKey] = value`, expressed functionally.  A falsy existing value
at an intermediate segment is overwritten by a fresh empty mapping; a truthy
non-mapping stops the walk with an error (a string primitive throws on the
eventual strict-mode property write). -/
def setPath (fields : List (String × JSValue)) (keys : List String)
    (lastKey : String) (v : JSValue) : Except DecodeErr (List (String × JSValue)) :=
  match keys with
  | [] => .ok (aset lastKey v fields)
  | k :: rest =>
    match alook k fields with
    | some (.obj inner) => do
      let inner' ← setPath inner rest lastKey v
      .ok (aset k (.obj inner') fields)
    | some w =>
      if w.truthy then
        match w with
        | .str _ => .error .typeError
        | _ => .error .nonPlainTarget
      else do
        let inner' ← setPath [] rest lastKey v
        .ok (aset k (.obj inner') fields)
    | none => do
      let inner' ← setPath [] rest lastKey v
      .ok (aset k (.obj inner') fields)

/-- One iteration of the rewrite pass over a snapshot entry: a key with a
separator is split, its value reassigned along the path, and the flat key
deleted; other keys are left alone. -/
def rewriteEntry (data : List (String × JSValue)) (kv : String × JSValue) :
    Except DecodeErr (List (String × JSValue)) :=
  if containsDot kv.1 then do
    -- const keys = key.split('.'); const lastKey = keys.pop()
    let data' ← setPath data ((splitDot kv.1).dropLast) ((splitDot kv.1).getLastD "") kv.2
    .ok (adel kv.1 data')
  else .ok data

/-- The dot-path rewrite pass: iterate over a snapshot (`Object.entries`)
of the grouped data while updating the data itself. -/
def rewritePass (data : List (String × JSValue)) :
    Except DecodeErr (List (String × JSValue)) :=
  data.foldlM rewriteEntry data

/-- `decodeFormData(formData, convertEmptyTo)`: the grouping pass followed
by the dot-path rewrite pass. -/
def decodeFormData (entries : List (String × FormValue))
    (convertEmptyTo : ConvertEmptyToValue) : Except DecodeErr (List (String × JSValue)) :=
  rewritePass (decodePass1 entries convertEmptyTo)

/-! ### The serializer (`serializeFormData` in decode_form.ts) -/

mutual
/-- The `JSON.parse(JSON.stringify(data))` canonicalization of a defined
value.  A `File` has no enumerable own properties, so it serializes to an
empty object; `undefined` occurs here only as an array element, where JSON
serialization turns it into `null` (object properties bound to `undefined`
are dropped by `jsonCanonFields` before this function is reached). -/
def jsonCanon : JSValue → JSValue
  | .str s => .str s
  | .file _ _ => .obj []
  | .undef => .null
  | .null => .null
  | .arr l => .arr (jsonCanonList l)
  | .obj f => .obj (jsonCanonFields f)

/-- Canonicalization of the elements of an array. -/
def jsonCanonList : List JSValue → List JSValue
  | [] => []
  | v :: rest => jsonCanon v :: jsonCanonList rest

/-- Canonicalization of the properties of an object: `undefined`-valued
properties are dropped entirely. -/
def jsonCanonFields : List (String × JSValue) → List (String × JSValue)
  | [] => []
  | (k, v) :: rest =>
    match v with
    | .undef => jsonCanonFields rest
    | v => (k, jsonCanon v) :: jsonCanonFields rest
end

/-- `isPlainObject`: a non-null `typeof 'object'` value that is not an
array.  Note a `File` is a plain object by this test; it never reaches
`flattenNestedFields` through `serializeFormData` because canonicalization
has already replaced it by an empty object. -/
def isPlainObject : JSValue → Bool
  | .obj _ => true
  | .file _ _ => true
  | _ => false

mutual
/-- `flattenNestedFields(value, prefix, acc)`: depth-first flattening of
nested plain mappings into dot-path keys.  The accumulator is threaded in
iteration order; an existing key is overwritten in place (JS assignment
semantics). -/
def flattenNestedFields : List (String × JSValue) → String →
    List (String × JSValue) → List (String × JSValue)
  | [], _, acc => acc
  | (k, v) :: rest, pre, acc =>
    flattenNestedFields rest pre (flattenEntry v (if pre = "" then k else pre ++ "." ++ k) acc)

/-- One property of the flattening loop: recurse into a plain mapping with
the extended path, otherwise assign the value at the accumulated dot-path
key.  A `File` value enumerates no own properties, hence behaves like an
empty plain mapping. -/
def flattenEntry : JSValue → String → List (String × JSValue) →
    List (String × JSValue)
  | .obj f, path, acc => flattenNestedFields f path acc
  | .file _ _, _, acc => acc
  | v, path, acc => aset path v acc
end

/-- Failure of `serializeFormData`: `JSON.stringify(undefined)` is not a
string, so the subsequent `JSON.parse` throws. -/
inductive SerErr : Type where
  | jsonUndefined
deriving DecidableEq, Repr

/-- `serializeFormData(data)`: JSON round-trip canonicalization, then
flattening when the result is a plain mapping, passthrough otherwise. -/
def serializeFormData (data : JSValue) : Except SerErr JSValue :=
  match data with
  | .undef => .error .jsonUndefined
  | data =>
    match jsonCanon data with
    | .obj f => .ok (.obj (flattenNestedFields f "" []))
    | c => .ok c

/-! ### The issue aggregator (`aggregateIssuesByPath` in decode_form.ts) -/

/-- A path segment of a validation issue: a property name or an array
index. -/
inductive PathSeg : Type where
  | key (s : String)
  | idx (n : Nat)
deriving DecidableEq, Repr

/-- JS `String(segment)`. -/
def PathSeg.toStr : PathSeg → String
  | .key s => s
  | .idx n => toString n

/-- A validation issue: a path and a message.  The message is optional at
runtime; the aggregator substitutes a default for a missing one. -/
structure ZodIssue : Type where
  path : List PathSeg
  message : Option String
deriving DecidableEq, Repr

/-- `issue.path.map(String).join('.')`. -/
def issueKey (issue : ZodIssue) : String :=
  joinDot (issue.path.map PathSeg.toStr)

/-- The body of the aggregation loop for one issue: a form-level issue
(empty path) is skipped, otherwise the issue's message (or the default
when missing) is pushed onto the list at the issue's dot-joined path. -/
def aggregateStep (agg : List (String × List String)) (issue : ZodIssue) :
    List (String × List String) :=
  if issue.path.isEmpty then agg
  else
    match alook (issueKey issue) agg with
    | some _ => aupd (issueKey issue) (fun m => m ++ [issue.message.getD "Invalid value"]) agg
    | none => agg ++ [(issueKey issue, [issue.message.getD "Invalid value"])]

/-- `aggregateIssuesByPath(issues)`. -/
def aggregateIssuesByPath (issues : List ZodIssue) : List (String × List String) :=
  issues.foldl aggregateStep []

/-! ### The schema model and `getZodValidationAttributes` (client/helpers.ts)

The zod schema tree is modelled by `ZodSchema`; a check record carries the
fields the extractor reads (`check`, `format`, `minimum`, `maximum`,
`value`, `inclusive`), with numeric parameters modelled as integers. -/

/-- A check record as read through `check._zod.def`. -/
structure ZodCheck : Type where
  check : Option String
  format : Option String
  minimum : Int
  maximum : Int
  value : Int
  inclusive : Bool
deriving DecidableEq, Repr

/-- The schema tree: an object node with named children, modifier nodes
wrapping one inner node (transform recursing into its declared input,
optional, nullable, default), a pipeline with declared input and output,
and the leaf kinds the extractor distinguishes. -/
inductive ZodSchema : Type where
  | zodObject (shape : List (String × ZodSchema))
  | zodTransform (inp : ZodSchema)
  | zodOptional (inner : ZodSchema)
  | zodNullable (inner : ZodSchema)
  | zodDefault (inner : ZodSchema)
  | zodPipe (inp pout : ZodSchema)
  | zodString (checks : List ZodCheck)
  | zodNumber (checks : List ZodCheck)
  | zodDate (checks : List ZodCheck)
  | zodBoolean
  | zodEnum
  | zodFile

/-- The `.type` tag a zod node exposes (`pipeDef.in?.type`). -/
def typeTag : ZodSchema → String
  | .zodObject _ => "object"
  | .zodTransform _ => "transform"
  | .zodOptional _ => "optional"
  | .zodNullable _ => "nullable"
  | .zodDefault _ => "default"
  | .zodPipe _ _ => "pipe"
  | .zodString _ => "string"
  | .zodNumber _ => "number"
  | .zodDate _ => "date"
  | .zodBoolean => "boolean"
  | .zodEnum => "enum"
  | .zodFile => "file"

/-- The value of a computed HTML validation attribute. -/
inductive AttrValue : Type where
  | s (v : String)
  | n (v : Int)
  | b (v : Bool)
deriving DecidableEq, Repr

/-- Zero-padded decimal rendering. -/
def padNum (width : Nat) (n : Nat) : String :=
  let s := toString n
  String.mk (List.replicate (width - s.length) '0') ++ s

/-- The year part of `Date.prototype.toISOString`. -/
def yearStr (y : Int) : String :=
  if 0 ≤ y ∧ y ≤ 9999 then padNum 4 y.toNat
  else if 9999 < y then "+" ++ padNum 6 y.toNat
  else "-" ++ padNum 6 (-y).toNat

/-- `new Date(ms).toISOString().split('T')[0]`: the proleptic-Gregorian
calendar date of an epoch-millisecond timestamp, as `YYYY-MM-DD`.  The
timestamp is modelled as an integer (a valid JS Date timestamp); the civil
conversion is the standard days-from-epoch algorithm. -/
def epochMsToDateString (ms : Int) : String :=
  let days : Int := Int.fdiv ms 86400000
  let z : Int := days + 719468
  let era : Int := Int.fdiv z 146097
  let doe : Int := z - era * 146097
  let yoe : Int := Int.fdiv (doe - Int.fdiv doe 1460 + Int.fdiv doe 36524 - Int.fdiv doe 146096) 365
  let y0 : Int := yoe + era * 400
  let doy : Int := doe - (365 * yoe + Int.fdiv yoe 4 - Int.fdiv yoe 100)
  let mp : Int := Int.fdiv (5 * doy + 2) 153
  let d : Int := doy - Int.fdiv (153 * mp + 2) 5 + 1
  let m : Int := mp + (if mp < 10 then 3 else -9)
  let y : Int := if m ≤ 2 then y0 + 1 else y0
  yearStr y ++ "-" ++ padNum 2 m.toNat ++ "-" ++ padNum 2 d.toNat

/-- The per-check scan of the `ZodString` branch (four independent ifs). -/
def stringCheck (attrs : List (String × AttrValue)) (c : ZodCheck) :
    List (String × AttrValue) :=
  let a1 := if c.check = some "min_length" then aset "minLength" (.n c.minimum) attrs else attrs
  let a2 := if c.check = some "max_length" then aset "maxLength" (.n c.maximum) a1 else a1
  let a3 := if c.format = some "email" then aset "type" (.s "email") a2 else a2
  if c.format = some "url" then aset "type" (.s "url") a3 else a3

/-- The per-check scan of the `ZodNumber` branch: inclusive bounds are used
directly, exclusive bounds offset by one, and a `safeint` format yields
`step: 1`. -/
def numberCheck (attrs : List (String × AttrValue)) (c : ZodCheck) :
    List (String × AttrValue) :=
  let a1 := if c.check = some "greater_than" ∧ c.inclusive then aset "min" (.n c.value) attrs else attrs
  let a2 := if c.check = some "less_than" ∧ c.inclusive then aset "max" (.n c.value) a1 else a1
  let a3 := if c.check = some "greater_than" ∧ ¬ c.inclusive then aset "min" (.n (c.value + 1)) a2 else a2
  let a4 := if c.check = some "less_than" ∧ ¬ c.inclusive then aset "max" (.n (c.value - 1)) a3 else a3
  if c.format = some "safeint" then aset "step" (.n 1) a4 else a4

/-- The per-check scan of the `ZodDate` branch: inclusive bounds are
rendered as calendar-date strings (a nonempty rendering is always
produced, mirroring the `if (minDate)` guard). -/
def dateCheck (attrs : List (String × AttrValue)) (c : ZodCheck) :
    List (String × AttrValue) :=
  let a1 :=
    if c.check = some "greater_than" ∧ c.inclusive then
      let m := epochMsToDateString c.value
      if m = "" then attrs else aset "min" (.s m) attrs
    else attrs
  if c.check = some "less_than" ∧ c.inclusive then
    let m := epochMsToDateString c.value
    if m = "" then a1 else aset "max" (.s m) a1
  else a1

/-- The final `if (!options?.inferTypeAttr) delete attrs.type` step. -/
def finishType (ty : String) (attrs : List (String × AttrValue)) (infer : Bool) :
    String × List (String × AttrValue) :=
  (ty, if infer then attrs else adel "type" attrs)

/-- The leaf branches of the extractor (lines 87-180 of helpers.ts),
applied to the already-unwrapped `actualSchema` with the attribute map
accumulated so far (which contains `required: true` exactly when the
wrapper was not a `ZodDefault`). -/
def leafResult (actualSchema : ZodSchema) (attrs0 : List (String × AttrValue))
    (infer : Bool) : String × List (String × AttrValue) :=
  match actualSchema with
  | .zodString checks =>
    finishType "string" (checks.foldl stringCheck (aset "type" (.s "text") attrs0)) infer
  | .zodNumber checks =>
    finishType "number" (checks.foldl numberCheck (aset "type" (.s "number") attrs0)) infer
  | .zodDate checks =>
    finishType "date" (checks.foldl dateCheck (aset "type" (.s "date") attrs0)) infer
  | .zodBoolean => finishType "boolean" (aset "type" (.s "checkbox") attrs0) infer
  | .zodEnum => finishType "enum" (aset "type" (.s "radio") attrs0) infer
  | .zodFile => finishType "file" (aset "type" (.s "file") attrs0) infer
  | _ => finishType "string" attrs0 infer

mutual
/-- `getZodValidationAttributes(schema, path, options)` with the
`inferTypeAttr` option flattened to a boolean.  Returns the leaf kind and
the constraint attribute map. -/
def getZodValidationAttributes (schema : ZodSchema) (path : List String)
    (infer : Bool) : String × List (String × AttrValue) :=
  match schema, path with
  | .zodObject shape, p :: ps => gzvaShape shape p ps infer
  | .zodTransform inp, path => getZodValidationAttributes inp path infer
  | .zodOptional inner, path =>
    let r := getZodValidationAttributes inner path infer
    (r.1, adel "required" r.2)
  | .zodNullable inner, path =>
    let r := getZodValidationAttributes inner path infer
    (r.1, adel "required" r.2)
  | .zodDefault inner, path =>
    -- default-valued wrapper: unwrap without setting `required`
    (match inner with
     | .zodPipe pin pout =>
       if typeTag pin = "string" ∧ typeTag pout = "boolean" then
         finishType "boolean" (aset "type" (.s "checkbox") []) infer
       else getZodValidationAttributes pin path infer
     | inner' => leafResult inner' [] infer)
  | s, path =>
    -- any other node: set `required: true`, then pipe special case or leaf
    (let attrs0 := aset "required" (.b true) []
     match s with
     | .zodPipe pin pout =>
       if typeTag pin = "string" ∧ typeTag pout = "boolean" then
         finishType "boolean" (aset "type" (.s "checkbox") attrs0) infer
       else getZodValidationAttributes pin path infer
     | s' => leafResult s' attrs0 infer)

/-- Child lookup in an object shape (`shape[path[0]]`), recursing into the
child when found and degrading to `(string, ...)` with an empty constraint
map when absent. -/
def gzvaShape (shape : List (String × ZodSchema)) (p : String) (ps : List String)
    (infer : Bool) : String × List (String × AttrValue) :=
  match shape with
  | [] => ("string", [])
  | (k, f) :: rest =>
    if k = p then getZodValidationAttributes f ps infer else gzvaShape rest p ps infer
end

mutual
/-- Characterization of when the extractor output contains the `required`
attribute (specified recursively; proved equal to the extractor's
behaviour below): present at leaves and at a string-to-boolean pipeline,
absent through optional/nullable wrappers and for absent paths, and for a
defaulted wrapper absent unless the default wraps a pipeline that is not
string-to-boolean, in which case the extractor re-enters the pipeline
input and the attribute reappears. -/
def requiredPresent : ZodSchema → List String → Bool
  | .zodObject shape, p :: ps => requiredPresentShape shape p ps
  | .zodTransform inp, path => requiredPresent inp path
  | .zodOptional _, _ => false
  | .zodNullable _, _ => false
  | .zodDefault inner, path =>
    (match inner with
     | .zodPipe pin pout =>
       if typeTag pin = "string" ∧ typeTag pout = "boolean" then false
       else requiredPresent pin path
     | _ => false)
  | .zodPipe pin pout, path =>
    if typeTag pin = "string" ∧ typeTag pout = "boolean" then true
    else requiredPresent pin path
  | _, _ => true

/-- Shape-lookup companion of `requiredPresent`. -/
def requiredPresentShape : List (String × ZodSchema) → String → List String → Bool
  | [], _, _ => false
  | (k, f) :: rest, p, ps =>
    if k = p then requiredPresent f ps else requiredPresentShape rest p ps
end

/-! ### Derived notions used to state the claims -/

/-- The values submitted under key `k`, in insertion order. -/
def valuesAt (k : String) (entries : List (String × FormValue)) : List FormValue :=
  entries.filterMap (fun p => if p.1 = k then some p.2 else none)

/-- The value the grouping pass associates to a key from the ordered list
of values submitted under it: nothing for an absent key, the
policy-converted value for a single occurrence, and an array whose head is
the policy-converted first value and whose tail holds the later values
unchanged. -/
def groupValues (convertEmptyTo : ConvertEmptyToValue) (vs : List FormValue) :
    Option JSValue :=
  match vs with
  | [] => none
  | v :: rest => some (rest.foldl pushValue (storeFirst convertEmptyTo v))

mutual
/-- The leaves of a nested object: each maximal chain of nested mappings
ending in a non-mapping value, as a (path, value) pair, in depth-first
iteration order. -/
def leavesF : List (String × JSValue) → List (List String × JSValue)
  | [] => []
  | (k, v) :: rest => leavesV k v ++ leavesF rest

/-- The leaves contributed by a single property. -/
def leavesV (k : String) : JSValue → List (List String × JSValue)
  | .obj f => (leavesF f).map (fun pv => (k :: pv.1, pv.2))
  | v => [([k], v)]
end

/-- The leaves of a nested object keyed by their dot-joined paths. -/
def leafJoins (fields : List (String × JSValue)) : List (String × JSValue) :=
  (leavesF fields).map (fun pv => (joinDot pv.1, pv.2))

mutual
/-- No `File` value occurs at property position in the nested object
(array elements are not inspected: arrays are atomic for the
flattener). -/
def fileFreeF : List (String × JSValue) → Bool
  | [] => true
  | (_, v) :: rest => fileFreeV v && fileFreeF rest

/-- Value-level companion of `fileFreeF`. -/
def fileFreeV : JSValue → Bool
  | .file _ _ => false
  | .obj f => fileFreeF f
  | _ => true
end

/-- Does the character list `l` begin with the pattern `pat`? -/
def beginsWith : List Char → List Char → Bool
  | [], _ => true
  | _ :: _, [] => false
  | a :: pat, b :: l => a = b && beginsWith pat l

/-- `dotAncestor a b`: is `b` of the form `a ++ "." ++ t`, i.e. does the
dotted key `b` extend the key `a` by at least one more path segment? -/
def dotAncestor (a b : String) : Bool :=
  beginsWith (a.data ++ ['.']) b.data

/-- No submission key extends another submission key by further dot
segments (rules out the rewrite-pass collisions of §9). -/
def ancestorFree (entries : List (String × FormValue)) : Bool :=
  entries.all (fun p => entries.all (fun q => !dotAncestor p.1 q.1))

/-- No submission key begins with the separator (a leading separator
creates a top-level empty-string segment that the flattener cannot rejoin
faithfully). -/
def noLeadingDot (entries : List (String × FormValue)) : Bool :=
  entries.all (fun p => p.1.data.head? != some '.')

/-- A top-level property named by the empty string whose value is a
mapping is absent or leafless (such a property arises only from a leading
separator and breaks flattening). -/
def emptyKeyObjOk (fields : List (String × JSValue)) : Bool :=
  fields.all (fun p =>
    if p.1 = "" then
      match p.2 with
      | .obj g => (leavesF g).isEmpty
      | _ => true
    else true)

/-- The canonicalized survivor of a decoded leaf value in the output of
the serializer: `undefined` is dropped by JSON serialization and a bare
attachment collapses to an empty mapping that then vanishes; everything
else survives canonicalized.  (A mapping is not a leaf; the arm exists
only for totality.) -/
def roundTripLeaf : JSValue → Option JSValue
  | .undef => none
  | .file _ _ => none
  | .obj _ => none
  | v => some (jsonCanon v)

/-- `roundTripLeaf` lifted to a dot-path-keyed binding. -/
def roundTripBinding (b : String × JSValue) : Option (String × JSValue) :=
  (roundTripLeaf b.2).map (fun w => (b.1, w))

/-- The messages of the issues that aggregate under a given dot-joined
path key, in supply order, duplicates kept; form-level issues (empty
path) contribute nowhere. -/
def relevantMessages (k : String) (issues : List ZodIssue) : List String :=
  issues.filterMap (fun issue =>
    if issue.path.isEmpty then none
    else if issueKey issue = k then some (issue.message.getD "Invalid value")
    else none)

/-- Precondition for the rewrite-pass walk to graft a value at
`keys ++ [lastKey]` without disturbing any existing leaf: every visited
segment is either absent or an existing mapping, and the final slot is
absent or a leafless mapping. -/
def canPlace : List (String × JSValue) → List String → String → Prop
  | fields, [], lastKey =>
    alook lastKey fields = none ∨
      ∃ f, alook lastKey fields = some (.obj f) ∧ leavesF f = []
  | fields, k :: rest, lastKey =>
    alook k fields = none ∨
      ∃ inner, alook k fields = some (.obj inner) ∧ canPlace inner rest lastKey

/-! ## Theorems

### Association-list lemmas -/

theorem alook_aset_self {α : Type} (k : String) (v : α) (l : List (String × α)) :
    alook k (aset k v l) = some v := by
  induction l with
  | nil => simp [aset, alook]
  | cons p rest ih =>
    obtain ⟨k', v'⟩ := p
    by_cases h : k' = k <;> simp [aset, h, alook, ih]

theorem alook_aset_ne {α : Type} {k k' : String} (h : k' ≠ k) (v : α)
    (l : List (String × α)) : alook k (aset k' v l) = alook k l := by
  induction l with
  | nil => simp [aset, alook, h]
  | cons p rest ih =>
    obtain ⟨k'', v''⟩ := p
    by_cases h2 : k'' = k' <;> simp [aset, h2, alook, ih]
    · subst h2; simp [h]

theorem alook_adel_self {α : Type} (k : String) (l : List (String × α)) :
    alook k (adel k l) = none := by
  induction l with
  | nil => simp [adel, alook]
  | cons p rest ih =>
    obtain ⟨k', v'⟩ := p
    by_cases h : k' = k <;> simp [adel, h, alook, ih]

theorem alook_adel_ne {α : Type} {k k' : String} (h : k' ≠ k)
    (l : List (String × α)) : alook k (adel k' l) = alook k l := by
  induction l with
  | nil => simp [adel, alook]
  | cons p rest ih =>
    obtain ⟨k'', v''⟩ := p
    by_cases h2 : k'' = k'
    · subst h2; simp [adel, alook, ih, h]
    · simp [adel, h2, alook, ih]

theorem alook_aupd_self {α : Type} (k : String) (f : α → α) (l : List (String × α)) :
    alook k (aupd k f l) = (alook k l).map f := by
  induction l with
  | nil => simp [aupd, alook]
  | cons p rest ih =>
    obtain ⟨k', v'⟩ := p
    by_cases h : k' = k <;> simp [aupd, h, alook, ih]

theorem alook_aupd_ne {α : Type} {k k' : String} (h : k' ≠ k) (f : α → α)
    (l : List (String × α)) : alook k (aupd k' f l) = alook k l := by
  induction l with
  | nil => simp [aupd, alook]
  | cons p rest ih =>
    obtain ⟨k'', v''⟩ := p
    by_cases h2 : k'' = k'
    · subst h2; simp [aupd, alook, ih, h]
    · simp [aupd, h2, alook, ih]

theorem alook_append {α : Type} (k : String) (l l' : List (String × α)) :
    alook k (l ++ l') = (alook k l).or (alook k l') := by
  induction l with
  | nil => simp [alook]
  | cons p rest ih =>
    obtain ⟨k', v'⟩ := p
    by_cases h : k' = k <;> simp [alook, h, ih]

theorem hasKey_eq_isSome {α : Type} (data : List (String × α)) (k : String) :
    hasKey data k = (alook k data).isSome := by
  induction data with
  | nil => simp [hasKey, alook]
  | cons p rest ih =>
    obtain ⟨k', v'⟩ := p
    by_cases h : k' = k
    · simp [hasKey, alook, h]
    · simp [hasKey, alook, h]; simpa [hasKey] using ih

/-! ### Characterization of the grouping pass -/

theorem valuesAt_cons (k k' : String) (v : FormValue) (es : List (String × FormValue)) :
    valuesAt k ((k', v) :: es) =
      if k' = k then v :: valuesAt k es else valuesAt k es := by
  by_cases h : k' = k <;> simp [valuesAt, h]

theorem foldl_decodeStep_alook (policy : ConvertEmptyToValue)
    (es : List (String × FormValue)) (data : List (String × JSValue)) (k : String) :
    alook k (es.foldl (decodeStep policy) data) =
      match alook k data with
      | some cur => some ((valuesAt k es).foldl pushValue cur)
      | none => groupValues policy (valuesAt k es) := by
  induction es generalizing data with
  | nil =>
    cases h : alook k data <;> simp [valuesAt, groupValues, h]
  | cons e es ih =>
    obtain ⟨k', v⟩ := e
    rw [List.foldl_cons, ih]
    by_cases hk : k' = k
    · subst hk
      rw [valuesAt_cons]
      simp only [if_pos rfl]
      cases hcur : alook k' data with
      | none =>
        have hkey : hasKey data k' = false := by simp [hasKey_eq_isSome, hcur]
        simp [decodeStep, hkey, alook_append, hcur, alook, groupValues]
      | some cur =>
        have hkey : hasKey data k' = true := by simp [hasKey_eq_isSome, hcur]
        simp [decodeStep, hkey, alook_aupd_self, hcur]
    · rw [valuesAt_cons, if_neg hk]
      have h1 : alook k (decodeStep policy data (k', v)) = alook k data := by
        unfold decodeStep
        by_cases hkey : hasKey data k'
        · simp [hkey, alook_aupd_ne hk]
        · simp [hkey, alook_append, alook, hk]
      rw [h1]

/-- The value `decodeFormData`'s grouping pass associates to each key. -/
theorem decodePass1_alook (es : List (String × FormValue))
    (policy : ConvertEmptyToValue) (k : String) :
    alook k (decodePass1 es policy) = groupValues policy (valuesAt k es) := by
  have := foldl_decodeStep_alook policy es [] k
  simpa [decodePass1, alook] using this

theorem pushValue_storeFirst (policy : ConvertEmptyToValue) (v w : FormValue) :
    pushValue (storeFirst policy v) w = .arr [storeFirst policy v, w.toJS] := by
  unfold storeFirst
  split
  · cases v <;> rfl
  · split
    · rfl
    · split
      · rfl
      · split
        · rfl
        · cases v <;> rfl

theorem foldl_pushValue_arr (vs : List FormValue) (acc : List JSValue) :
    vs.foldl pushValue (.arr acc) = .arr (acc ++ vs.map FormValue.toJS) := by
  induction vs generalizing acc with
  | nil => simp
  | cons v vs ih => simp [pushValue, ih]

/-- A key with two or more occurrences groups into an array whose head is
the policy-converted first value and whose tail holds the later values
unchanged, in order. -/
theorem groupValues_grouped (policy : ConvertEmptyToValue) (v w : FormValue)
    (rest : List FormValue) :
    groupValues policy (v :: w :: rest) =
      some (.arr (storeFirst policy v :: (w :: rest).map FormValue.toJS)) := by
  simp [groupValues, pushValue_storeFirst, foldl_pushValue_arr]

/-! ### The rewrite pass on separator-free data -/

theorem foldlM_rewriteEntry_noDot (S : List (String × JSValue)) :
    ∀ data, (∀ p ∈ S, containsDot p.1 = false) →
      S.foldlM rewriteEntry data = .ok data := by
  induction S with
  | nil => intro data _; rfl
  | cons e S ih =>
    intro data h
    have he : containsDot e.1 = false := h e (by simp)
    have hstep : rewriteEntry data e = .ok data := by simp [rewriteEntry, he]
    rw [List.foldlM_cons, hstep]
    simpa using ih data (fun p hp => h p (by simp [hp]))

theorem aupd_map_fst {α : Type} (k : String) (f : α → α) (l : List (String × α)) :
    (aupd k f l).map Prod.fst = l.map Prod.fst := by
  induction l with
  | nil => rfl
  | cons p rest ih =>
    obtain ⟨k', v'⟩ := p
    by_cases h : k' = k <;> simp [aupd, h, ih]

theorem decodePass1_keys (es : List (String × FormValue)) (policy : ConvertEmptyToValue) :
    ∀ q ∈ decodePass1 es policy, q.1 ∈ es.map Prod.fst := by
  suffices h : ∀ data q, q ∈ es.foldl (decodeStep policy) data →
      q.1 ∈ data.map Prod.fst ∨ q.1 ∈ es.map Prod.fst by
    intro q hq
    rcases h [] q hq with h' | h'
    · simp at h'
    · exact h'
  induction es with
  | nil => intro data q hq; exact Or.inl (List.mem_map_of_mem _ hq)
  | cons e es ih =>
    intro data q hq
    rw [List.foldl_cons] at hq
    rcases ih _ q hq with h' | h'
    · unfold decodeStep at h'
      split at h'
      · rw [List.map_append] at h'
        rcases List.mem_append.mp h' with h'' | h''
        · exact Or.inl h''
        · right
          simp at h''
          simp [h'']
      · rw [aupd_map_fst] at h'
        exact Or.inl h'
    · right; simp [h']

/-- With no separator-containing key in the submission, the rewrite pass is
the identity: decoding returns the grouping pass's output unchanged. -/
theorem decodeFormData_noDot (es : List (String × FormValue))
    (policy : ConvertEmptyToValue) (h : ∀ p ∈ es, containsDot p.1 = false) :
    decodeFormData es policy = .ok (decodePass1 es policy) := by
  unfold decodeFormData rewritePass
  apply foldlM_rewriteEntry_noDot
  intro p hp
  obtain ⟨q, hq, hfst⟩ := List.mem_map.mp (decodePass1_keys es policy p hp)
  exact hfst ▸ h q hq

/-! ### Preservation of grouped arrays through the rewrite pass -/

theorem splitDotChars_ne_nil (l : List Char) : splitDotChars l ≠ [] := by
  cases l with
  | nil => simp [splitDotChars]
  | cons c rest =>
    simp only [splitDotChars]
    cases h : splitDotChars rest with
    | nil => simp
    | cons seg segs => by_cases hc : c = '.' <;> simp [hc]

theorem splitDotChars_length (l : List Char) :
    (splitDotChars l).length = l.count '.' + 1 := by
  induction l with
  | nil => simp [splitDotChars]
  | cons c rest ih =>
    simp only [splitDotChars]
    cases hs : splitDotChars rest with
    | nil => exact absurd hs (splitDotChars_ne_nil rest)
    | cons seg segs =>
      rw [hs] at ih
      by_cases hc : c = '.'
      · subst hc
        simp [List.count_cons] at ih ⊢
        omega
      · simp [hc, List.count_cons, Ne.symm hc] at ih ⊢
        omega

theorem splitDotChars_length_two {l : List Char} (h : '.' ∈ l) :
    2 ≤ (splitDotChars l).length := by
  rw [splitDotChars_length]
  have : 0 < l.count '.' := List.count_pos_iff.mpr h
  omega

theorem splitDot_dropLast_ne_nil {s : String} (h : containsDot s = true) :
    (splitDot s).dropLast ≠ [] := by
  have hmem : '.' ∈ s.data := by simpa [containsDot] using h
  have h2 := splitDotChars_length_two hmem
  have hlen : 2 ≤ (splitDot s).length := by simpa [splitDot] using h2
  intro hnil
  have := congrArg List.length hnil
  rw [List.length_dropLast] at this
  simp at this
  omega

theorem setPath_bind_aux {k s : String} {l : List JSValue}
    {data data' inn : List (String × JSValue)} {rest : List String}
    {lastKey : String} {v : JSValue} (hs : s ≠ k)
    (h : (setPath inn rest lastKey v >>=
      fun inner' => Except.ok (aset s (JSValue.obj inner') data)) = .ok data')
    (hk : alook k data = some (.arr l)) :
    alook k data' = some (.arr l) := by
  cases hsp : setPath inn rest lastKey v with
  | error e => rw [hsp] at h; simp [Bind.bind, Except.bind] at h
  | ok inner' =>
    rw [hsp] at h
    simp [Bind.bind, Except.bind] at h
    rw [← h, alook_aset_ne hs]
    exact hk

theorem setPath_preserves_arr {k : String} {l : List JSValue}
    {data data' : List (String × JSValue)} {s : String} {rest : List String}
    {lastKey : String} {v : JSValue}
    (h : setPath data (s :: rest) lastKey v = .ok data')
    (hk : alook k data = some (.arr l)) :
    alook k data' = some (.arr l) := by
  simp only [setPath] at h
  by_cases hs : s = k
  · subst hs
    rw [hk] at h
    simp [JSValue.truthy] at h
  · cases halook : alook s data with
    | none =>
      rw [halook] at h
      exact setPath_bind_aux hs h hk
    | some w =>
      rw [halook] at h
      match w with
      | .obj inner => exact setPath_bind_aux hs h hk
      | .str s' =>
        by_cases ht : s' = ""
        · subst ht
          simp only [JSValue.truthy, decide_not] at h
          simp at h
          exact setPath_bind_aux hs h hk
        · simp [JSValue.truthy, ht] at h
      | .file n z => simp [JSValue.truthy] at h
      | .arr l' => simp [JSValue.truthy] at h
      | .undef =>
        simp only [JSValue.truthy] at h
        simp at h
        exact setPath_bind_aux hs h hk
      | .null =>
        simp only [JSValue.truthy] at h
        simp at h
        exact setPath_bind_aux hs h hk

theorem foldlM_preserves_arr {k : String} {l : List JSValue}
    (hdot : containsDot k = false) (S : List (String × JSValue)) :
    ∀ {data m}, S.foldlM rewriteEntry data = .ok m →
      alook k data = some (.arr l) → alook k m = some (.arr l) := by
  induction S with
  | nil =>
    intro data m h hk
    simp [List.foldlM, pure, Except.pure] at h
    exact h ▸ hk
  | cons e S ih =>
    intro data m h hk
    rw [List.foldlM_cons] at h
    cases hstep : rewriteEntry data e with
    | error err => rw [hstep] at h; simp [Bind.bind, Except.bind] at h
    | ok data₁ =>
      rw [hstep] at h
      simp only [Bind.bind, Except.bind] at h
      apply ih h
      unfold rewriteEntry at hstep
      by_cases hd : containsDot e.1
      · rw [if_pos hd] at hstep
        rcases hcons : (splitDot e.1).dropLast with _ | ⟨s, keysRest⟩
        · exact absurd hcons (splitDot_dropLast_ne_nil hd)
        · rw [hcons] at hstep
          cases hsp : setPath data (s :: keysRest) ((splitDot e.1).getLastD "") e.2 with
          | error err => rw [hsp] at hstep; simp [Bind.bind, Except.bind] at hstep
          | ok data₂ =>
            rw [hsp] at hstep
            simp [Bind.bind, Except.bind] at hstep
            have harr := setPath_preserves_arr hsp hk
            have hek : e.1 ≠ k := fun hek => by rw [hek, hdot] at hd; cases hd
            rw [← hstep, alook_adel_ne hek]
            exact harr
      · rw [if_neg hd] at hstep
        simp at hstep
        exact hstep ▸ hk

theorem storeFirst_empty (policy : ConvertEmptyToValue) :
    storeFirst policy (.text "") = .undef ∨ storeFirst policy (.text "") = .null ∨
      storeFirst policy (.text "") = .str "" := by
  have h : storeFirst policy (.text "") =
      (if policy = "undefined" then JSValue.undef
       else if policy = "null" then JSValue.null
       else if policy = "empty-string" then JSValue.str ""
       else JSValue.str "") := rfl
  rw [h]
  split
  · exact Or.inl rfl
  · split
    · exact Or.inr (Or.inl rfl)
    · split
      · exact Or.inr (Or.inr rfl)
      · exact Or.inr (Or.inr rfl)

theorem storeFirst_nonempty {v : String} (policy : ConvertEmptyToValue)
    (hv : v ≠ "") : storeFirst policy (.text v) = .str v := by
  simp [storeFirst, FormValue.truthyLen, FormValue.toJS, hv]

/-- The value decoded at a repeated, separator-free key, provided decoding
completed: the grouped array survives the rewrite pass untouched. -/
theorem decode_grouped_array {es : List (String × FormValue)}
    {policy : ConvertEmptyToValue} {k : String} {m : List (String × JSValue)}
    {v w : FormValue} {rest : List FormValue}
    (hok : decodeFormData es policy = .ok m)
    (hdot : containsDot k = false)
    (hvals : valuesAt k es = v :: w :: rest) :
    alook k m = some (.arr (storeFirst policy v :: (w :: rest).map FormValue.toJS)) := by
  have hp := decodePass1_alook es policy k
  rw [hvals, groupValues_grouped] at hp
  unfold decodeFormData rewritePass at hok
  exact foldlM_preserves_arr hdot _ hok hp

/-! ### Claims C1 and C2: the dot-path rewrite on colliding keys -/

/-- C1 (counterexample): on the claim's own example — keys `a ↦ "v"` and
`a.b ↦ "w"` — the existing scalar is *not* silently overwritten with a
mapping; the decoder walks into the string primitive and the strict-mode
property write throws a TypeError, so no decoded object is produced at
all. -/
theorem c1_counterexample :
    decodeFormData [("a", .text "v"), ("a.b", .text "w")] "null" =
      .error .typeError := rfl

/-- C1 (amended): in the dot-path rewrite, an existing top-level value at
an intermediate segment is overwritten with a mapping only when it is
falsy — `undefined`, `null`, or the empty string, i.e. exactly when the
colliding first-pass value came from an empty submission value (under any
policy).  A truthy text value is never overwritten: the walk descends into
the string primitive and the property assignment throws a TypeError. -/
theorem c1_overwrite_only_falsy (v w : String) (policy : ConvertEmptyToValue) :
    decodeFormData [("a", .text v), ("a.b", .text w)] policy =
      if v = "" then .ok [("a", .obj [("b", storeFirst policy (.text w))])]
      else .error .typeError := by
  by_cases hv : v = ""
  · subst hv
    rw [if_pos rfl]
    unfold decodeFormData rewritePass
    have hpass : decodePass1 [("a", .text ""), ("a.b", .text w)] policy =
        [("a", storeFirst policy (.text "")),
         ("a.b", storeFirst policy (.text w))] := rfl
    rw [hpass]
    rcases storeFirst_empty policy with h1 | h1 | h1 <;> rw [h1] <;> rfl
  · rw [if_neg hv]
    unfold decodeFormData rewritePass
    have hpass : decodePass1 [("a", .text v), ("a.b", .text w)] policy =
        [("a", storeFirst policy (.text v)),
         ("a.b", storeFirst policy (.text w))] := rfl
    rw [hpass, storeFirst_nonempty policy hv]
    have h1 : containsDot "a" = false := rfl
    have h2 : containsDot "a.b" = true := rfl
    have hsp : setPath [("a", JSValue.str v), ("a.b", storeFirst policy (.text w))]
        ((splitDot "a.b").dropLast) ((splitDot "a.b").getLastD "")
        (storeFirst policy (.text w)) = .error .typeError := by
      show setPath _ ["a"] "b" _ = _
      simp [setPath, alook, JSValue.truthy, hv]
    rw [List.foldlM_cons]
    have hre1 : rewriteEntry [("a", JSValue.str v), ("a.b", storeFirst policy (.text w))]
        ("a", JSValue.str v) = .ok [("a", JSValue.str v), ("a.b", storeFirst policy (.text w))] := by
      simp [rewriteEntry, h1]
    rw [hre1]
    simp only [Bind.bind, Except.bind, List.foldlM_cons]
    have hre2 : rewriteEntry [("a", JSValue.str v), ("a.b", storeFirst policy (.text w))]
        ("a.b", storeFirst policy (.text w)) = .error .typeError := by
      unfold rewriteEntry
      rw [if_pos h2, hsp]
      rfl
    rw [hre2]

/-- C2 (counterexample): the decoder is not total — a dotted key whose
intermediate segment collides with a truthy text value makes it throw a
strict-mode TypeError. -/
theorem c2_counterexample :
    decodeFormData [("a", .text "v"), ("a.b", .text "w")] "undefined" =
      .error .typeError := rfl

/-- C2 (amended): the decoder is total on every submission whose keys
contain no separator; the rewrite pass then never runs into a collision
and decoding returns the grouping pass's output normally. -/
theorem c2_total_without_separators (es : List (String × FormValue))
    (policy : ConvertEmptyToValue) (h : ∀ p ∈ es, containsDot p.1 = false) :
    ∃ m, decodeFormData es policy = .ok m :=
  ⟨decodePass1 es policy, decodeFormData_noDot es policy h⟩

/-- Witness for `c2_total_without_separators` at a concrete submission. -/
theorem c2_total_without_separators_witness :
    (∀ p ∈ [(("x" : String), FormValue.text "1"), ("y", FormValue.text "")],
      containsDot p.1 = false) ∧
    ∃ m, decodeFormData [("x", FormValue.text "1"), ("y", FormValue.text "")] "null" = .ok m :=
  ⟨by decide, c2_total_without_separators _ "null" (by decide)⟩

/-! ### Claim C5: the empty-value policy at a fresh key -/

/-- C5: when the grouping pass meets a not-yet-seen key, a zero-length
text value is stored as `undefined`, `null`, or `""` for the three
recognized policy values, and stored unchanged (the empty string itself)
for any unrecognized policy value; a zero-length binary attachment is
always stored as-is, under every policy. -/
theorem c5_empty_value_policy (policy : ConvertEmptyToValue)
    (es : List (String × FormValue)) (k : String)
    (h : hasKey (decodePass1 es policy) k = false) :
    (decodePass1 (es ++ [(k, .text "")]) policy =
      decodePass1 es policy ++
        [(k, if policy = "undefined" then .undef
             else if policy = "null" then .null
             else if policy = "empty-string" then .str ""
             else .str "")]) ∧
    (∀ name, decodePass1 (es ++ [(k, .file name 0)]) policy =
      decodePass1 es policy ++ [(k, .file name 0)]) := by
  constructor
  · rw [decodePass1, List.foldl_append]
    show decodeStep policy (decodePass1 es policy) (k, .text "") = _
    rw [decodeStep]
    rw [if_pos (by simp [h])]
    rfl
  · intro name
    rw [decodePass1, List.foldl_append]
    show decodeStep policy (decodePass1 es policy) (k, .file name 0) = _
    rw [decodeStep]
    rw [if_pos (by simp [h])]
    rfl

/-- Witness for `c5_empty_value_policy` at a concrete submission. -/
theorem c5_empty_value_policy_witness :
    hasKey (decodePass1 [("a", FormValue.text "x")] "null") "b" = false ∧
    (decodePass1 [("a", FormValue.text "x"), ("b", FormValue.text "")] "null" =
      decodePass1 [("a", FormValue.text "x")] "null" ++
        [("b", if ("null" : String) = "undefined" then JSValue.undef
               else if ("null" : String) = "null" then JSValue.null
               else if ("null" : String) = "empty-string" then JSValue.str ""
               else JSValue.str "")]) ∧
    (∀ name, decodePass1 [("a", FormValue.text "x"), ("b", FormValue.file name 0)] "null" =
      decodePass1 [("a", FormValue.text "x")] "null" ++ [("b", JSValue.file name 0)]) := by
  refine ⟨by decide, ?_⟩
  exact c5_empty_value_policy "null" [("a", FormValue.text "x")] "b" (by decide)

/-! ### Claims C6 and C10: grouped arrays at repeated keys -/

/-- C6 (counterexample): a submission with a repeated key need not decode
to an array at that key at all — an unrelated dotted-key collision makes
the whole decoder throw before anything is produced. -/
theorem c6_counterexample :
    decodeFormData
      [("t", .text "x"), ("t", .text "y"), ("s", .text "v"), ("s.b", .text "w")]
      "undefined" = .error .typeError := rfl

/-- C6 (amended): provided decoding completes, a separator-free key
occurring N > 1 times decodes to an array of length N at that key, whose
head is the policy-converted first value and whose tail holds the later
values unchanged, in original append order. -/
theorem c6_repeated_key_array (es : List (String × FormValue))
    (policy : ConvertEmptyToValue) (k : String) (m : List (String × JSValue))
    (v w : FormValue) (rest : List FormValue)
    (hok : decodeFormData es policy = .ok m)
    (hdot : containsDot k = false)
    (hvals : valuesAt k es = v :: w :: rest) :
    alook k m = some (.arr (storeFirst policy v :: (w :: rest).map FormValue.toJS)) ∧
      (storeFirst policy v :: (w :: rest).map FormValue.toJS).length =
        (v :: w :: rest).length := by
  refine ⟨decode_grouped_array hok hdot hvals, by simp⟩

/-- Witness for `c6_repeated_key_array` at a concrete submission. -/
theorem c6_repeated_key_array_witness :
    decodeFormData [("t", FormValue.text "x"), ("t", FormValue.text "y")] "undefined" =
        .ok [("t", JSValue.arr [JSValue.str "x", JSValue.str "y"])] ∧
    containsDot "t" = false ∧
    valuesAt "t" [("t", FormValue.text "x"), ("t", FormValue.text "y")] =
      [FormValue.text "x", FormValue.text "y"] ∧
    (alook "t" [("t", JSValue.arr [JSValue.str "x", JSValue.str "y"])] =
      some (.arr (storeFirst "undefined" (FormValue.text "x") ::
        [FormValue.text "y"].map FormValue.toJS)) ∧
      (storeFirst "undefined" (FormValue.text "x") ::
        [FormValue.text "y"].map FormValue.toJS).length =
        ([FormValue.text "x", FormValue.text "y"]).length) := by
  refine ⟨rfl, rfl, rfl, ?_⟩
  exact c6_repeated_key_array [("t", FormValue.text "x"), ("t", FormValue.text "y")]
    "undefined" "t" [("t", JSValue.arr [JSValue.str "x", JSValue.str "y"])]
    (FormValue.text "x") (FormValue.text "y") [] rfl rfl rfl

/-- C10 (counterexample): the empty string submitted at a later occurrence
of a repeated key is not appended to any resulting array when an
unrelated dotted-key collision makes the decoder throw first. -/
theorem c10_counterexample :
    decodeFormData
      [("t", .text ""), ("t", .text ""), ("s", .text "v"), ("s.b", .text "w")]
      "null" = .error .typeError := rfl

/-- C10 (amended): provided decoding completes, the empty-value policy is
applied only to the first occurrence of a (separator-free) key: a
zero-length text value at a later occurrence is appended to the grouped
array as the raw empty string, unconverted, whatever the policy. -/
theorem c10_policy_first_occurrence_only (es : List (String × FormValue))
    (policy : ConvertEmptyToValue) (k : String) (m : List (String × JSValue))
    (v : FormValue) (rest : List FormValue) (i : Nat)
    (hok : decodeFormData es policy = .ok m)
    (hdot : containsDot k = false)
    (hvals : valuesAt k es = v :: rest)
    (hi : rest[i]? = some (.text "")) :
    ∃ l, alook k m = some (.arr l) ∧ l[i + 1]? = some (.str "") := by
  obtain ⟨w, rest', rfl⟩ : ∃ w rest', rest = w :: rest' := by
    cases rest with
    | nil => simp at hi
    | cons w rest' => exact ⟨w, rest', rfl⟩
  refine ⟨_, decode_grouped_array hok hdot hvals, ?_⟩
  have : ((w :: rest').map FormValue.toJS)[i]? = some (JSValue.str "") := by
    rw [List.getElem?_map, hi]
    rfl
  simpa using this

/-- Witness for `c10_policy_first_occurrence_only` at a concrete
submission: the policy is `'null'`, yet the second (empty) occurrence is
kept as a raw empty string in the array. -/
theorem c10_policy_first_occurrence_only_witness :
    decodeFormData [("t", FormValue.text ""), ("t", FormValue.text "")] "null" =
        .ok [("t", JSValue.arr [JSValue.null, JSValue.str ""])] ∧
    containsDot "t" = false ∧
    valuesAt "t" [("t", FormValue.text ""), ("t", FormValue.text "")] =
      [FormValue.text "", FormValue.text ""] ∧
    ([FormValue.text ""] : List FormValue)[0]? = some (.text "") ∧
    ∃ l, alook "t" [("t", JSValue.arr [JSValue.null, JSValue.str ""])] =
      some (.arr l) ∧ l[0 + 1]? = some (.str "") := by
  refine ⟨rfl, rfl, rfl, rfl, ?_⟩
  exact c10_policy_first_occurrence_only
    [("t", FormValue.text ""), ("t", FormValue.text "")] "null" "t"
    [("t", JSValue.arr [JSValue.null, JSValue.str ""])]
    (FormValue.text "") [FormValue.text ""] 0 rfl rfl rfl rfl

/-! ### Claim C8: the issue aggregator -/

theorem relevantMessages_cons (k : String) (issue : ZodIssue) (issues : List ZodIssue) :
    relevantMessages k (issue :: issues) =
      if issue.path.isEmpty then relevantMessages k issues
      else if issueKey issue = k then
        issue.message.getD "Invalid value" :: relevantMessages k issues
      else relevantMessages k issues := by
  by_cases h1 : issue.path.isEmpty
  · have h1' : issue.path = [] := by simpa using h1
    simp [relevantMessages, h1']
  · have h1' : ¬ issue.path = [] := by simpa using h1
    by_cases h2 : issueKey issue = k <;> simp [relevantMessages, h1, h1', h2]

theorem foldl_aggregateStep_alook (issues : List ZodIssue) :
    ∀ (agg : List (String × List String)) (k : String),
      alook k (issues.foldl aggregateStep agg) =
        match alook k agg with
        | some msgs => some (msgs ++ relevantMessages k issues)
        | none =>
          if relevantMessages k issues = [] then none
          else some (relevantMessages k issues) := by
  induction issues with
  | nil =>
    intro agg k
    cases h : alook k agg <;> simp [relevantMessages, h]
  | cons issue issues ih =>
    intro agg k
    rw [List.foldl_cons, ih, relevantMessages_cons]
    by_cases hempty : issue.path.isEmpty
    · simp only [if_pos hempty]
      rw [show aggregateStep agg issue = agg by simp [aggregateStep, hempty]]
    · simp only [if_neg hempty]
      by_cases hk : issueKey issue = k
      · subst hk
        simp only [if_pos rfl]
        cases hcur : alook (issueKey issue) agg with
        | some msgs =>
          have hstep : aggregateStep agg issue =
              aupd (issueKey issue)
                (fun m => m ++ [issue.message.getD "Invalid value"]) agg := by
            simp [aggregateStep, hempty, hcur]
          rw [hstep, alook_aupd_self, hcur]
          simp
        | none =>
          have hstep : aggregateStep agg issue =
              agg ++ [(issueKey issue, [issue.message.getD "Invalid value"])] := by
            simp [aggregateStep, hempty, hcur]
          rw [hstep, alook_append, hcur]
          simp [alook]
      · rw [if_neg hk]
        have hstep : alook k (aggregateStep agg issue) = alook k agg := by
          unfold aggregateStep
          rw [if_neg hempty]
          cases hcur : alook (issueKey issue) agg with
          | some msgs => simp [alook_aupd_ne hk]
          | none => simp [alook_append, alook, hk]
        rw [hstep]

/-- C8: the aggregator maps each dot-joined path to exactly the list of
its issues' messages in supply order (duplicates kept); issues with an
empty path are dropped; and a key is present exactly when it has at least
one message (absent keys yield nothing, present keys a nonempty list). -/
theorem c8_aggregate_by_path (issues : List ZodIssue) (k : String) :
    alook k (aggregateIssuesByPath issues) =
      if relevantMessages k issues = [] then none
      else some (relevantMessages k issues) := by
  have h := foldl_aggregateStep_alook issues [] k
  simpa [aggregateIssuesByPath, alook] using h

/-! ### The `required` attribute through the extractor -/

theorem alook_required_ite (cond : Prop) [Decidable cond] {k : String}
    (hk : k ≠ "required") (v : AttrValue) (attrs : List (String × AttrValue)) :
    alook "required" (if cond then aset k v attrs else attrs) =
      alook "required" attrs := by
  split
  · exact alook_aset_ne hk v attrs
  · rfl

theorem stringCheck_required (attrs : List (String × AttrValue)) (c : ZodCheck) :
    alook "required" (stringCheck attrs c) = alook "required" attrs := by
  simp only [stringCheck]
  rw [alook_required_ite _ (by decide), alook_required_ite _ (by decide),
    alook_required_ite _ (by decide), alook_required_ite _ (by decide)]

theorem numberCheck_required (attrs : List (String × AttrValue)) (c : ZodCheck) :
    alook "required" (numberCheck attrs c) = alook "required" attrs := by
  simp only [numberCheck]
  rw [alook_required_ite _ (by decide), alook_required_ite _ (by decide),
    alook_required_ite _ (by decide), alook_required_ite _ (by decide),
    alook_required_ite _ (by decide)]

theorem dateCheck_required (attrs : List (String × AttrValue)) (c : ZodCheck) :
    alook "required" (dateCheck attrs c) = alook "required" attrs := by
  simp only [dateCheck]
  repeat' split
  all_goals
    first
    | rfl
    | rw [alook_aset_ne (show ("max" : String) ≠ "required" by decide),
        alook_aset_ne (show ("min" : String) ≠ "required" by decide)]
    | rw [alook_aset_ne (show ("min" : String) ≠ "required" by decide)]
    | rw [alook_aset_ne (show ("max" : String) ≠ "required" by decide)]

theorem foldl_stringCheck_required (checks : List ZodCheck)
    (attrs : List (String × AttrValue)) :
    alook "required" (checks.foldl stringCheck attrs) = alook "required" attrs := by
  induction checks generalizing attrs with
  | nil => rfl
  | cons c checks ih => rw [List.foldl_cons, ih, stringCheck_required]

theorem foldl_numberCheck_required (checks : List ZodCheck)
    (attrs : List (String × AttrValue)) :
    alook "required" (checks.foldl numberCheck attrs) = alook "required" attrs := by
  induction checks generalizing attrs with
  | nil => rfl
  | cons c checks ih => rw [List.foldl_cons, ih, numberCheck_required]

theorem foldl_dateCheck_required (checks : List ZodCheck)
    (attrs : List (String × AttrValue)) :
    alook "required" (checks.foldl dateCheck attrs) = alook "required" attrs := by
  induction checks generalizing attrs with
  | nil => rfl
  | cons c checks ih => rw [List.foldl_cons, ih, dateCheck_required]

theorem finishType_required (ty : String) (attrs : List (String × AttrValue))
    (infer : Bool) :
    alook "required" (finishType ty attrs infer).2 = alook "required" attrs := by
  unfold finishType
  split
  · rfl
  · exact alook_adel_ne (by decide) attrs

theorem leafResult_required (s : ZodSchema) (attrs0 : List (String × AttrValue))
    (infer : Bool) :
    alook "required" (leafResult s attrs0 infer).2 = alook "required" attrs0 := by
  cases s <;>
    simp only [leafResult, finishType_required, foldl_stringCheck_required,
      foldl_numberCheck_required, foldl_dateCheck_required] <;>
    first
    | rfl
    | rw [alook_aset_ne (by decide)]

mutual
theorem gzva_required : ∀ (schema : ZodSchema) (path : List String) (infer : Bool),
    alook "required" (getZodValidationAttributes schema path infer).2 =
      (if requiredPresent schema path then some (AttrValue.b true) else none)
  | .zodObject shape, p :: ps, infer => gzvaShape_required shape p ps infer
  | .zodObject shape, [], infer => by
    rw [show getZodValidationAttributes (.zodObject shape) [] infer =
        leafResult (.zodObject shape) (aset "required" (.b true) []) infer from rfl]
    rw [show requiredPresent (.zodObject shape) [] = true from rfl]
    rw [leafResult_required, alook_aset_self]
    rfl
  | .zodTransform inp, path, infer => gzva_required inp path infer
  | .zodOptional inner, path, infer => by
    rw [show getZodValidationAttributes (.zodOptional inner) path infer =
        ((getZodValidationAttributes inner path infer).1,
          adel "required" (getZodValidationAttributes inner path infer).2) from rfl]
    rw [show requiredPresent (.zodOptional inner) path = false from rfl]
    exact alook_adel_self "required" _
  | .zodNullable inner, path, infer => by
    rw [show getZodValidationAttributes (.zodNullable inner) path infer =
        ((getZodValidationAttributes inner path infer).1,
          adel "required" (getZodValidationAttributes inner path infer).2) from rfl]
    rw [show requiredPresent (.zodNullable inner) path = false from rfl]
    exact alook_adel_self "required" _
  | .zodDefault inner, path, infer => by
    cases inner with
    | zodPipe pin pout =>
      by_cases hsb : typeTag pin = "string" ∧ typeTag pout = "boolean"
      · rw [show getZodValidationAttributes (.zodDefault (.zodPipe pin pout)) path infer =
            (if typeTag pin = "string" ∧ typeTag pout = "boolean" then
              finishType "boolean" (aset "type" (.s "checkbox") []) infer
            else getZodValidationAttributes pin path infer) from rfl]
        rw [show requiredPresent (.zodDefault (.zodPipe pin pout)) path =
            (if typeTag pin = "string" ∧ typeTag pout = "boolean" then false
            else requiredPresent pin path) from rfl]
        rw [if_pos hsb, if_pos hsb, finishType_required,
          alook_aset_ne (show ("type" : String) ≠ "required" by decide)]
        rfl
      · rw [show getZodValidationAttributes (.zodDefault (.zodPipe pin pout)) path infer =
            (if typeTag pin = "string" ∧ typeTag pout = "boolean" then
              finishType "boolean" (aset "type" (.s "checkbox") []) infer
            else getZodValidationAttributes pin path infer) from rfl]
        rw [show requiredPresent (.zodDefault (.zodPipe pin pout)) path =
            (if typeTag pin = "string" ∧ typeTag pout = "boolean" then false
            else requiredPresent pin path) from rfl]
        rw [if_neg hsb, if_neg hsb]
        exact gzva_required pin path infer
    | zodObject shape =>
      rw [show getZodValidationAttributes (.zodDefault (.zodObject shape)) path infer =
          leafResult (.zodObject shape) [] infer from rfl]
      rw [show requiredPresent (.zodDefault (.zodObject shape)) path = false from rfl]
      rw [leafResult_required]
      rfl
    | zodTransform inp =>
      rw [show getZodValidationAttributes (.zodDefault (.zodTransform inp)) path infer =
          leafResult (.zodTransform inp) [] infer from rfl]
      rw [show requiredPresent (.zodDefault (.zodTransform inp)) path = false from rfl]
      rw [leafResult_required]
      rfl
    | zodOptional i =>
      rw [show getZodValidationAttributes (.zodDefault (.zodOptional i)) path infer =
          leafResult (.zodOptional i) [] infer from rfl]
      rw [show requiredPresent (.zodDefault (.zodOptional i)) path = false from rfl]
      rw [leafResult_required]
      rfl
    | zodNullable i =>
      rw [show getZodValidationAttributes (.zodDefault (.zodNullable i)) path infer =
          leafResult (.zodNullable i) [] infer from rfl]
      rw [show requiredPresent (.zodDefault (.zodNullable i)) path = false from rfl]
      rw [leafResult_required]
      rfl
    | zodDefault i =>
      rw [show getZodValidationAttributes (.zodDefault (.zodDefault i)) path infer =
          leafResult (.zodDefault i) [] infer from rfl]
      rw [show requiredPresent (.zodDefault (.zodDefault i)) path = false from rfl]
      rw [leafResult_required]
      rfl
    | zodString checks =>
      rw [show getZodValidationAttributes (.zodDefault (.zodString checks)) path infer =
          leafResult (.zodString checks) [] infer from rfl]
      rw [show requiredPresent (.zodDefault (.zodString checks)) path = false from rfl]
      rw [leafResult_required]
      rfl
    | zodNumber checks =>
      rw [show getZodValidationAttributes (.zodDefault (.zodNumber checks)) path infer =
          leafResult (.zodNumber checks) [] infer from rfl]
      rw [show requiredPresent (.zodDefault (.zodNumber checks)) path = false from rfl]
      rw [leafResult_required]
      rfl
    | zodDate checks =>
      rw [show getZodValidationAttributes (.zodDefault (.zodDate checks)) path infer =
          leafResult (.zodDate checks) [] infer from rfl]
      rw [show requiredPresent (.zodDefault (.zodDate checks)) path = false from rfl]
      rw [leafResult_required]
      rfl
    | zodBoolean =>
      rw [show getZodValidationAttributes (.zodDefault .zodBoolean) path infer =
          leafResult .zodBoolean [] infer from rfl]
      rw [show requiredPresent (.zodDefault .zodBoolean) path = false from rfl]
      rw [leafResult_required]
      rfl
    | zodEnum =>
      rw [show getZodValidationAttributes (.zodDefault .zodEnum) path infer =
          leafResult .zodEnum [] infer from rfl]
      rw [show requiredPresent (.zodDefault .zodEnum) path = false from rfl]
      rw [leafResult_required]
      rfl
    | zodFile =>
      rw [show getZodValidationAttributes (.zodDefault .zodFile) path infer =
          leafResult .zodFile [] infer from rfl]
      rw [show requiredPresent (.zodDefault .zodFile) path = false from rfl]
      rw [leafResult_required]
      rfl
  | .zodPipe pin pout, path, infer => by
    by_cases hsb : typeTag pin = "string" ∧ typeTag pout = "boolean"
    · rw [show getZodValidationAttributes (.zodPipe pin pout) path infer =
          (if typeTag pin = "string" ∧ typeTag pout = "boolean" then
            finishType "boolean"
              (aset "type" (.s "checkbox") (aset "required" (.b true) [])) infer
          else getZodValidationAttributes pin path infer) from rfl]
      rw [show requiredPresent (.zodPipe pin pout) path =
          (if typeTag pin = "string" ∧ typeTag pout = "boolean" then true
          else requiredPresent pin path) from rfl]
      rw [if_pos hsb, if_pos hsb, finishType_required,
        alook_aset_ne (show ("type" : String) ≠ "required" by decide), alook_aset_self]
      rfl
    · rw [show getZodValidationAttributes (.zodPipe pin pout) path infer =
          (if typeTag pin = "string" ∧ typeTag pout = "boolean" then
            finishType "boolean"
              (aset "type" (.s "checkbox") (aset "required" (.b true) [])) infer
          else getZodValidationAttributes pin path infer) from rfl]
      rw [show requiredPresent (.zodPipe pin pout) path =
          (if typeTag pin = "string" ∧ typeTag pout = "boolean" then true
          else requiredPresent pin path) from rfl]
      rw [if_neg hsb, if_neg hsb]
      exact gzva_required pin path infer
  | .zodString checks, path, infer => by
    rw [show getZodValidationAttributes (.zodString checks) path infer =
        leafResult (.zodString checks) (aset "required" (.b true) []) infer from rfl]
    rw [show requiredPresent (.zodString checks) path = true from rfl]
    rw [leafResult_required, alook_aset_self]
    rfl
  | .zodNumber checks, path, infer => by
    rw [show getZodValidationAttributes (.zodNumber checks) path infer =
        leafResult (.zodNumber checks) (aset "required" (.b true) []) infer from rfl]
    rw [show requiredPresent (.zodNumber checks) path = true from rfl]
    rw [leafResult_required, alook_aset_self]
    rfl
  | .zodDate checks, path, infer => by
    rw [show getZodValidationAttributes (.zodDate checks) path infer =
        leafResult (.zodDate checks) (aset "required" (.b true) []) infer from rfl]
    rw [show requiredPresent (.zodDate checks) path = true from rfl]
    rw [leafResult_required, alook_aset_self]
    rfl
  | .zodBoolean, path, infer => by
    rw [show getZodValidationAttributes .zodBoolean path infer =
        leafResult .zodBoolean (aset "required" (.b true) []) infer from rfl]
    rw [show requiredPresent .zodBoolean path = true from rfl]
    rw [leafResult_required, alook_aset_self]
    rfl
  | .zodEnum, path, infer => by
    rw [show getZodValidationAttributes .zodEnum path infer =
        leafResult .zodEnum (aset "required" (.b true) []) infer from rfl]
    rw [show requiredPresent .zodEnum path = true from rfl]
    rw [leafResult_required, alook_aset_self]
    rfl
  | .zodFile, path, infer => by
    rw [show getZodValidationAttributes .zodFile path infer =
        leafResult .zodFile (aset "required" (.b true) []) infer from rfl]
    rw [show requiredPresent .zodFile path = true from rfl]
    rw [leafResult_required, alook_aset_self]
    rfl

theorem gzvaShape_required : ∀ (shape : List (String × ZodSchema)) (p : String)
    (ps : List String) (infer : Bool),
    alook "required" (gzvaShape shape p ps infer).2 =
      (if requiredPresentShape shape p ps then some (AttrValue.b true) else none)
  | [], p, ps, infer => rfl
  | (k, f) :: rest, p, ps, infer => by
    rw [show gzvaShape ((k, f) :: rest) p ps infer =
        (if k = p then getZodValidationAttributes f ps infer
        else gzvaShape rest p ps infer) from rfl]
    rw [show requiredPresentShape ((k, f) :: rest) p ps =
        (if k = p then requiredPresent f ps else requiredPresentShape rest p ps) from rfl]
    by_cases hk : k = p
    · rw [if_pos hk, if_pos hk]
      exact gzva_required f ps infer
    · rw [if_neg hk, if_neg hk]
      exact gzvaShape_required rest p ps infer
end

theorem gzvaShape_alook (shape : List (String × ZodSchema)) (p : String)
    (ps : List String) (infer : Bool) :
    gzvaShape shape p ps infer =
      match alook p shape with
      | some f => getZodValidationAttributes f ps infer
      | none => ("string", []) := by
  induction shape with
  | nil => rfl
  | cons e rest ih =>
    obtain ⟨k, f⟩ := e
    by_cases hk : k = p <;> simp [gzvaShape, alook, hk, ih]

/-! ### Claims C3 and C9 -/

/-- C3 (counterexample): a field wrapped as `default(pipe(string,
transform))` — e.g. `z.string().transform(f).default(v)` — passes through
a defaulted modifier, yet the returned constraint map still contains
`required: true`: the non-string-to-boolean pipeline branch re-enters the
pipeline input with a fresh attribute map, where `required` is set
again. -/
theorem c3_counterexample :
    alook "required"
      (getZodValidationAttributes
        (.zodDefault (.zodPipe (.zodString []) (.zodTransform (.zodString []))))
        [] false).2 = some (.b true) := rfl

/-- C3 (amended): the `required` attribute of the constraint map is
present exactly when `requiredPresent` holds — present with value `true`
at leaves and string-to-boolean pipelines, absent through
optional/nullable wrappers and for unresolved paths, and absent for a
defaulted wrapper except when the default wraps a pipeline that is not
string-to-boolean (the extractor then re-enters the pipeline input and
`required` reappears).  In particular `required` is never present with
value `false`. -/
theorem c3_required_true_or_absent (schema : ZodSchema) (path : List String)
    (infer : Bool) :
    alook "required" (getZodValidationAttributes schema path infer).2 =
      (if requiredPresent schema path then some (AttrValue.b true) else none) :=
  gzva_required schema path infer

/-- C9: the extractor is total (it is a total function of this model by
construction), and when an object node has no child named by the first
remaining path segment it returns leaf kind `string` with an empty
constraint map. -/
theorem c9_absent_path_default (shape : List (String × ZodSchema)) (p : String)
    (ps : List String) (infer : Bool) (h : alook p shape = none) :
    getZodValidationAttributes (.zodObject shape) (p :: ps) infer = ("string", []) := by
  rw [show getZodValidationAttributes (.zodObject shape) (p :: ps) infer =
      gzvaShape shape p ps infer from rfl]
  rw [gzvaShape_alook, h]

/-- Witness for `c9_absent_path_default` at a concrete schema and path. -/
theorem c9_absent_path_default_witness :
    alook "missing" [("name", ZodSchema.zodString [])] = none ∧
    getZodValidationAttributes (.zodObject [("name", ZodSchema.zodString [])])
      ["missing"] true = ("string", []) :=
  ⟨rfl, c9_absent_path_default [("name", ZodSchema.zodString [])] "missing" [] true rfl⟩

/-! ### String, join, and leaf-path helpers -/

theorem dot_data : ("." : String).data = ['.'] := rfl

theorem append_dot_data (a b : String) :
    (a ++ "." ++ b).data = a.data ++ '.' :: b.data := by
  rw [String.data_append, String.data_append, dot_data]
  simp

theorem append_dot_ne_empty (a b : String) : a ++ "." ++ b ≠ "" := by
  intro h
  have h2 := congrArg String.data h
  rw [append_dot_data] at h2
  simp at h2

theorem string_append_assoc (a b c : String) : a ++ b ++ c = a ++ (b ++ c) := by
  apply String.ext
  simp [String.data_append]

theorem joinDot_cons {p : List String} (k : String) (hp : p ≠ []) :
    joinDot (k :: p) = k ++ "." ++ joinDot p := by
  cases p with
  | nil => exact absurd rfl hp
  | cons q rest => rfl

theorem leavesV_path (k : String) (v : JSValue) :
    ∀ pv ∈ leavesV k v, ∃ p', pv.1 = k :: p' := by
  intro pv hpv
  cases v with
  | obj f =>
    simp only [leavesV] at hpv
    obtain ⟨q, _, rfl⟩ := List.mem_map.mp hpv
    exact ⟨q.1, rfl⟩
  | str s => simp [leavesV] at hpv; exact ⟨[], by simp [hpv]⟩
  | file n z => simp [leavesV] at hpv; exact ⟨[], by simp [hpv]⟩
  | undef => simp [leavesV] at hpv; exact ⟨[], by simp [hpv]⟩
  | null => simp [leavesV] at hpv; exact ⟨[], by simp [hpv]⟩
  | arr l => simp [leavesV] at hpv; exact ⟨[], by simp [hpv]⟩

theorem leavesF_path_ne_nil (fields : List (String × JSValue)) :
    ∀ pv ∈ leavesF fields, pv.1 ≠ [] := by
  induction fields with
  | nil => simp [leavesF]
  | cons e rest ih =>
    obtain ⟨k, v⟩ := e
    intro pv hpv
    rw [show leavesF ((k, v) :: rest) = leavesV k v ++ leavesF rest from rfl] at hpv
    rcases List.mem_append.mp hpv with h | h
    · obtain ⟨p', hp'⟩ := leavesV_path k v pv h
      simp [hp']
    · exact ih pv h

theorem leavesF_append (A B : List (String × JSValue)) :
    leavesF (A ++ B) = leavesF A ++ leavesF B := by
  induction A with
  | nil => rfl
  | cons e rest ih =>
    obtain ⟨k, v⟩ := e
    rw [List.cons_append,
      show leavesF ((k, v) :: (rest ++ B)) = leavesV k v ++ leavesF (rest ++ B) from rfl,
      show leavesF ((k, v) :: rest) = leavesV k v ++ leavesF rest from rfl,
      ih, List.append_assoc]

theorem alook_eq_none_iff {α : Type} (k : String) (l : List (String × α)) :
    alook k l = none ↔ k ∉ l.map Prod.fst := by
  induction l with
  | nil => simp [alook]
  | cons p rest ih =>
    obtain ⟨k', v'⟩ := p
    by_cases h : k' = k
    · subst h; simp [alook]
    · simp [alook, h, ih, Ne.symm h]

theorem aset_append_fresh {α : Type} {k : String} {acc : List (String × α)}
    (h : alook k acc = none) (v : α) : aset k v acc = acc ++ [(k, v)] := by
  induction acc with
  | nil => rfl
  | cons p rest ih =>
    obtain ⟨k', v'⟩ := p
    simp only [alook] at h
    by_cases hk : k' = k
    · rw [if_pos hk] at h; cases h
    · rw [if_neg hk] at h
      simp [aset, hk, ih h]

/-! ### The flattener on leafless and on well-separated data -/

mutual
theorem flatten_leafless : ∀ (fields : List (String × JSValue)) (pre : String)
    (acc : List (String × JSValue)),
    leavesF fields = [] → flattenNestedFields fields pre acc = acc
  | [], _, _, _ => rfl
  | (k, v) :: rest, pre, acc, h => by
    have h' : leavesV k v = [] ∧ leavesF rest = [] := by
      rw [show leavesF ((k, v) :: rest) = leavesV k v ++ leavesF rest from rfl] at h
      exact List.append_eq_nil.mp h
    rw [show flattenNestedFields ((k, v) :: rest) pre acc =
        flattenNestedFields rest pre
          (flattenEntry v (if pre = "" then k else pre ++ "." ++ k) acc) from rfl]
    rw [flattenEntry_leafless k v _ acc h'.1]
    exact flatten_leafless rest pre acc h'.2

theorem flattenEntry_leafless : ∀ (k : String) (v : JSValue) (path : String)
    (acc : List (String × JSValue)),
    leavesV k v = [] → flattenEntry v path acc = acc
  | k, .obj f, path, acc, h => by
    have hf : leavesF f = [] := by
      rw [show leavesV k (.obj f) =
          (leavesF f).map (fun pv => (k :: pv.1, pv.2)) from rfl] at h
      exact List.map_eq_nil_iff.mp h
    exact flatten_leafless f path acc hf
  | k, .str s, path, acc, h => by simp [leavesV] at h
  | k, .file n z, path, acc, h => by simp [leavesV] at h
  | k, .undef, path, acc, h => by simp [leavesV] at h
  | k, .null, path, acc, h => by simp [leavesV] at h
  | k, .arr l, path, acc, h => by simp [leavesV] at h
end

theorem leavesV_obj_map (k pre : String) (f : List (String × JSValue)) :
    (leavesV k (.obj f)).map (fun pv => (pre ++ "." ++ joinDot pv.1, pv.2)) =
      (leavesF f).map (fun pv => ((pre ++ "." ++ k) ++ "." ++ joinDot pv.1, pv.2)) := by
  rw [show leavesV k (.obj f) = (leavesF f).map (fun pv => (k :: pv.1, pv.2)) from rfl,
    List.map_map]
  apply List.map_congr_left
  intro pv hpv
  simp only [Function.comp]
  rw [joinDot_cons k (leavesF_path_ne_nil f pv hpv)]
  simp [string_append_assoc]

theorem leavesV_obj_map_top (k : String) (f : List (String × JSValue)) :
    (leavesV k (.obj f)).map (fun pv => (joinDot pv.1, pv.2)) =
      (leavesF f).map (fun pv => (k ++ "." ++ joinDot pv.1, pv.2)) := by
  rw [show leavesV k (.obj f) = (leavesF f).map (fun pv => (k :: pv.1, pv.2)) from rfl,
    List.map_map]
  apply List.map_congr_left
  intro pv hpv
  simp only [Function.comp]
  rw [joinDot_cons k (leavesF_path_ne_nil f pv hpv)]

mutual
theorem flatten_inner : ∀ (fields : List (String × JSValue)) (pre : String)
    (acc : List (String × JSValue)),
    pre ≠ "" → fileFreeF fields = true →
    List.Nodup (acc.map Prod.fst ++
      (leavesF fields).map (fun pv => pre ++ "." ++ joinDot pv.1)) →
    flattenNestedFields fields pre acc =
      acc ++ (leavesF fields).map (fun pv => (pre ++ "." ++ joinDot pv.1, pv.2))
  | [], pre, acc, h1, h2, h3 => by
    show acc = acc ++ List.map _ (leavesF [])
    rw [show leavesF [] = [] from rfl]
    simp
  | (k, v) :: rest, pre, acc, h1, h2, h3 => by
    have hff : fileFreeV v = true ∧ fileFreeF rest = true := by
      rw [show fileFreeF ((k, v) :: rest) = (fileFreeV v && fileFreeF rest) from rfl] at h2
      simpa using h2
    rw [show leavesF ((k, v) :: rest) = leavesV k v ++ leavesF rest from rfl,
      List.map_append, ← List.append_assoc] at h3
    rw [show flattenNestedFields ((k, v) :: rest) pre acc =
        flattenNestedFields rest pre
          (flattenEntry v (if pre = "" then k else pre ++ "." ++ k) acc) from rfl,
      if_neg h1]
    have hE := flattenEntry_inner v k pre acc h1 hff.1 (List.Nodup.of_append_left h3)
    rw [hE]
    have hacc' : (acc ++ (leavesV k v).map
          (fun pv => (pre ++ "." ++ joinDot pv.1, pv.2))).map Prod.fst =
        acc.map Prod.fst ++ (leavesV k v).map (fun pv => pre ++ "." ++ joinDot pv.1) := by
      simp [List.map_append, List.map_map, Function.comp]
    have hR := flatten_inner rest pre
      (acc ++ (leavesV k v).map (fun pv => (pre ++ "." ++ joinDot pv.1, pv.2)))
      h1 hff.2 (by rw [hacc']; exact h3)
    rw [hR,
      show leavesF ((k, v) :: rest) = leavesV k v ++ leavesF rest from rfl,
      List.map_append, List.append_assoc]

theorem flattenEntry_inner : ∀ (v : JSValue) (k pre : String)
    (acc : List (String × JSValue)),
    pre ≠ "" → fileFreeV v = true →
    List.Nodup (acc.map Prod.fst ++
      (leavesV k v).map (fun pv => pre ++ "." ++ joinDot pv.1)) →
    flattenEntry v (pre ++ "." ++ k) acc =
      acc ++ (leavesV k v).map (fun pv => (pre ++ "." ++ joinDot pv.1, pv.2))
  | .obj f, k, pre, acc, h1, h2, h3 => by
    rw [show flattenEntry (.obj f) (pre ++ "." ++ k) acc =
        flattenNestedFields f (pre ++ "." ++ k) acc from rfl]
    have hkeys : (leavesV k (.obj f)).map (fun pv => pre ++ "." ++ joinDot pv.1) =
        (leavesF f).map (fun pv => (pre ++ "." ++ k) ++ "." ++ joinDot pv.1) := by
      have h := congrArg (List.map Prod.fst) (leavesV_obj_map k pre f)
      simpa [List.map_map, Function.comp] using h
    rw [leavesV_obj_map k pre f]
    exact flatten_inner f (pre ++ "." ++ k) acc (append_dot_ne_empty pre k)
      (by rw [show fileFreeV (.obj f) = fileFreeF f from rfl] at h2; exact h2)
      (by rw [← hkeys]; exact h3)
  | .file n z, k, pre, acc, h1, h2, h3 => by simp [fileFreeV] at h2
  | .str s, k, pre, acc, h1, h2, h3 => by
    rw [show flattenEntry (.str s) (pre ++ "." ++ k) acc =
        aset (pre ++ "." ++ k) (.str s) acc from rfl]
    have hfresh : alook (pre ++ "." ++ k) acc = none := by
      rw [alook_eq_none_iff]
      intro hmem
      exact (List.disjoint_of_nodup_append h3) hmem (by simp [leavesV, joinDot])
    rw [aset_append_fresh hfresh]
    rfl
  | .undef, k, pre, acc, h1, h2, h3 => by
    rw [show flattenEntry .undef (pre ++ "." ++ k) acc =
        aset (pre ++ "." ++ k) .undef acc from rfl]
    have hfresh : alook (pre ++ "." ++ k) acc = none := by
      rw [alook_eq_none_iff]
      intro hmem
      exact (List.disjoint_of_nodup_append h3) hmem (by simp [leavesV, joinDot])
    rw [aset_append_fresh hfresh]
    rfl
  | .null, k, pre, acc, h1, h2, h3 => by
    rw [show flattenEntry .null (pre ++ "." ++ k) acc =
        aset (pre ++ "." ++ k) .null acc from rfl]
    have hfresh : alook (pre ++ "." ++ k) acc = none := by
      rw [alook_eq_none_iff]
      intro hmem
      exact (List.disjoint_of_nodup_append h3) hmem (by simp [leavesV, joinDot])
    rw [aset_append_fresh hfresh]
    rfl
  | .arr l, k, pre, acc, h1, h2, h3 => by
    rw [show flattenEntry (.arr l) (pre ++ "." ++ k) acc =
        aset (pre ++ "." ++ k) (.arr l) acc from rfl]
    have hfresh : alook (pre ++ "." ++ k) acc = none := by
      rw [alook_eq_none_iff]
      intro hmem
      exact (List.disjoint_of_nodup_append h3) hmem (by simp [leavesV, joinDot])
    rw [aset_append_fresh hfresh]
    rfl
end

theorem flattenEntry_not_plain {v : JSValue} (h : isPlainObject v = false)
    (path : String) (acc : List (String × JSValue)) :
    flattenEntry v path acc = aset path v acc := by
  cases v <;> first | rfl | simp [isPlainObject] at h

theorem flatten_top : ∀ (fields acc : List (String × JSValue)),
    fileFreeF fields = true → emptyKeyObjOk fields = true →
    List.Nodup (acc.map Prod.fst ++ (leavesF fields).map (fun pv => joinDot pv.1)) →
    flattenNestedFields fields "" acc =
      acc ++ (leavesF fields).map (fun pv => (joinDot pv.1, pv.2)) := by
  intro fields
  induction fields with
  | nil =>
    intro acc _ _ _
    show acc = acc ++ List.map _ (leavesF [])
    rw [show leavesF [] = [] from rfl]
    simp
  | cons e rest ih =>
    obtain ⟨k, v⟩ := e
    intro acc h1 h2 h3
    have hff : fileFreeV v = true ∧ fileFreeF rest = true := by
      rw [show fileFreeF ((k, v) :: rest) = (fileFreeV v && fileFreeF rest) from rfl] at h1
      simpa using h1
    have hok : emptyKeyObjOk rest = true := by
      simp only [emptyKeyObjOk, List.all_cons, Bool.and_eq_true] at h2
      exact h2.2
    rw [show leavesF ((k, v) :: rest) = leavesV k v ++ leavesF rest from rfl,
      List.map_append, ← List.append_assoc] at h3
    rw [show flattenNestedFields ((k, v) :: rest) "" acc =
        flattenNestedFields rest ""
          (flattenEntry v (if ("" : String) = "" then k else "" ++ "." ++ k) acc) from rfl,
      if_pos rfl]
    have hE : flattenEntry v k acc =
        acc ++ (leavesV k v).map (fun pv => (joinDot pv.1, pv.2)) := by
      cases v with
      | obj f =>
        by_cases hk : k = ""
        · subst hk
          have hleafless : leavesF f = [] := by
            simp only [emptyKeyObjOk, List.all_cons, Bool.and_eq_true] at h2
            have h2a := h2.1
            simp at h2a
            exact h2a
          rw [show flattenEntry (.obj f) "" acc = flattenNestedFields f "" acc from rfl,
            flatten_leafless f "" acc hleafless,
            show leavesV "" (.obj f) =
              (leavesF f).map (fun pv => ("" :: pv.1, pv.2)) from rfl,
            hleafless]
          simp
        · rw [show flattenEntry (.obj f) k acc = flattenNestedFields f k acc from rfl,
            leavesV_obj_map_top]
          refine flatten_inner f k acc hk ?_ ?_
          · rw [show fileFreeV (.obj f) = fileFreeF f from rfl] at hff
            exact hff.1
          · have hkeys : (leavesV k (.obj f)).map (fun pv => joinDot pv.1) =
                (leavesF f).map (fun pv => k ++ "." ++ joinDot pv.1) := by
              have h := congrArg (List.map Prod.fst) (leavesV_obj_map_top k f)
              simpa [List.map_map, Function.comp] using h
            rw [← hkeys]
            exact List.Nodup.of_append_left h3
      | file n z => exact absurd hff.1 (by simp [fileFreeV])
      | str s =>
        rw [flattenEntry_not_plain
          (show isPlainObject (JSValue.str s) = false from rfl) k acc]
        have hfresh : alook k acc = none := by
          rw [alook_eq_none_iff]
          intro hmem
          exact (List.disjoint_of_nodup_append (List.Nodup.of_append_left h3)) hmem
            (by simp [leavesV, joinDot])
        rw [aset_append_fresh hfresh]
        rfl
      | undef =>
        rw [flattenEntry_not_plain
          (show isPlainObject (JSValue.undef) = false from rfl) k acc]
        have hfresh : alook k acc = none := by
          rw [alook_eq_none_iff]
          intro hmem
          exact (List.disjoint_of_nodup_append (List.Nodup.of_append_left h3)) hmem
            (by simp [leavesV, joinDot])
        rw [aset_append_fresh hfresh]
        rfl
      | null =>
        rw [flattenEntry_not_plain
          (show isPlainObject (JSValue.null) = false from rfl) k acc]
        have hfresh : alook k acc = none := by
          rw [alook_eq_none_iff]
          intro hmem
          exact (List.disjoint_of_nodup_append (List.Nodup.of_append_left h3)) hmem
            (by simp [leavesV, joinDot])
        rw [aset_append_fresh hfresh]
        rfl
      | arr l =>
        rw [flattenEntry_not_plain
          (show isPlainObject (JSValue.arr l) = false from rfl) k acc]
        have hfresh : alook k acc = none := by
          rw [alook_eq_none_iff]
          intro hmem
          exact (List.disjoint_of_nodup_append (List.Nodup.of_append_left h3)) hmem
            (by simp [leavesV, joinDot])
        rw [aset_append_fresh hfresh]
        rfl
    rw [hE]
    have hacc' : (acc ++ (leavesV k v).map
          (fun pv => (joinDot pv.1, pv.2))).map Prod.fst =
        acc.map Prod.fst ++ (leavesV k v).map (fun pv => joinDot pv.1) := by
      simp [List.map_append, List.map_map, Function.comp]
    rw [ih _ hff.2 hok (by rw [hacc']; exact h3),
      show leavesF ((k, v) :: rest) = leavesV k v ++ leavesF rest from rfl,
      List.map_append, List.append_assoc]

mutual
theorem fileFree_canonF : ∀ fields, fileFreeF (jsonCanonFields fields) = true
  | [] => rfl
  | (k, v) :: rest => by
    cases v with
    | undef => exact fileFree_canonF rest
    | str s =>
      rw [show fileFreeF (jsonCanonFields ((k, .str s) :: rest)) =
          (fileFreeV (jsonCanon (.str s)) && fileFreeF (jsonCanonFields rest)) from rfl,
        fileFree_canonV (.str s), fileFree_canonF rest]
      rfl
    | file n z =>
      rw [show fileFreeF (jsonCanonFields ((k, .file n z) :: rest)) =
          (fileFreeV (jsonCanon (.file n z)) && fileFreeF (jsonCanonFields rest)) from rfl,
        fileFree_canonV (.file n z), fileFree_canonF rest]
      rfl
    | null =>
      rw [show fileFreeF (jsonCanonFields ((k, .null) :: rest)) =
          (fileFreeV (jsonCanon .null) && fileFreeF (jsonCanonFields rest)) from rfl,
        fileFree_canonV .null, fileFree_canonF rest]
      rfl
    | arr l =>
      rw [show fileFreeF (jsonCanonFields ((k, .arr l) :: rest)) =
          (fileFreeV (jsonCanon (.arr l)) && fileFreeF (jsonCanonFields rest)) from rfl,
        fileFree_canonV (.arr l), fileFree_canonF rest]
      rfl
    | obj f =>
      rw [show fileFreeF (jsonCanonFields ((k, .obj f) :: rest)) =
          (fileFreeV (jsonCanon (.obj f)) && fileFreeF (jsonCanonFields rest)) from rfl,
        fileFree_canonV (.obj f), fileFree_canonF rest]
      rfl

theorem fileFree_canonV : ∀ v, fileFreeV (jsonCanon v) = true
  | .str _ => rfl
  | .file _ _ => rfl
  | .undef => rfl
  | .null => rfl
  | .arr _ => rfl
  | .obj f => fileFree_canonF f
end

/-! ### Claim C7: the serializer on plain mappings -/

/-- C7 (counterexample): on the plain-mapping input with properties
`a ↦ (b ↦ "1")` and `a.b ↦ "2"`, two distinct leaves share the dot-joined
path `a.b`; the later flat key overwrites the earlier nested leaf, so the
output does not map the nested leaf's dot-joined path to its leaf value. -/
theorem c7_counterexample :
    serializeFormData (.obj [("a", .obj [("b", .str "1")]), ("a.b", .str "2")]) =
      .ok (.obj [("a.b", JSValue.str "2")]) ∧
    (["a", "b"], JSValue.str "1") ∈
      leavesF (jsonCanonFields [("a", .obj [("b", .str "1")]), ("a.b", .str "2")]) ∧
    alook (joinDot ["a", "b"]) [("a.b", JSValue.str "2")] = some (JSValue.str "2") ∧
    JSValue.str "2" ≠ JSValue.str "1" := by
  refine ⟨rfl, ?_, rfl, ?_⟩
  · rw [show leavesF (jsonCanonFields [("a", .obj [("b", .str "1")]), ("a.b", .str "2")]) =
        [(["a", "b"], JSValue.str "1"), (["a.b"], JSValue.str "2")] from rfl]
    exact List.mem_cons_self _ _
  · intro h
    simp at h

/-- C7 (amended): for every plain-mapping input whose canonicalized leaves
have pairwise-distinct dot-joined paths and no top-level empty-string key
bound to a leafy mapping, the serializer's output is exactly the list of
the canonicalized leaves keyed by their dot-joined paths: every leaf
(arrays included, as single atomic values) appears under its dot-joined
path, an empty plain mapping contributes no key at all, and no other key
appears. -/
theorem c7_flatten_characterization (fields : List (String × JSValue))
    (h1 : emptyKeyObjOk (jsonCanonFields fields) = true)
    (h2 : List.Nodup ((leavesF (jsonCanonFields fields)).map (fun pv => joinDot pv.1))) :
    serializeFormData (.obj fields) =
      .ok (.obj ((leavesF (jsonCanonFields fields)).map
        (fun pv => (joinDot pv.1, pv.2)))) := by
  rw [show serializeFormData (.obj fields) =
      .ok (.obj (flattenNestedFields (jsonCanonFields fields) "" [])) from rfl]
  rw [flatten_top (jsonCanonFields fields) [] (fileFree_canonF fields) h1
    (by simpa using h2)]
  rw [List.nil_append]

/-- Witness for `c7_flatten_characterization` at a concrete input with a
nested mapping, an atomic array, a vanishing empty mapping, and a dropped
`undefined` property. -/
theorem c7_flatten_characterization_witness :
    emptyKeyObjOk (jsonCanonFields
      [("user", .obj [("name", .str "Jane")]), ("tags", .arr [.str "x"]),
       ("emptyObj", .obj []), ("phone", .undef)]) = true ∧
    List.Nodup ((leavesF (jsonCanonFields
      [("user", .obj [("name", .str "Jane")]), ("tags", .arr [.str "x"]),
       ("emptyObj", .obj []), ("phone", .undef)])).map (fun pv => joinDot pv.1)) ∧
    serializeFormData (.obj
      [("user", .obj [("name", .str "Jane")]), ("tags", .arr [.str "x"]),
       ("emptyObj", .obj []), ("phone", .undef)]) =
      .ok (.obj ((leavesF (jsonCanonFields
        [("user", .obj [("name", .str "Jane")]), ("tags", .arr [.str "x"]),
         ("emptyObj", .obj []), ("phone", .undef)])).map
        (fun pv => (joinDot pv.1, pv.2)))) := by
  refine ⟨rfl, by decide, ?_⟩
  exact c7_flatten_characterization
    [("user", .obj [("name", .str "Jane")]), ("tags", .arr [.str "x"]),
     ("emptyObj", .obj []), ("phone", .undef)] rfl (by decide)

/-! ### Split/join round trip and segment facts -/

theorem joinDot_map_mk_splitDotChars (l : List Char) :
    joinDot ((splitDotChars l).map String.mk) = String.mk l := by
  induction l with
  | nil => rfl
  | cons c rest ih =>
    cases hs : splitDotChars rest with
    | nil => exact absurd hs (splitDotChars_ne_nil rest)
    | cons seg segs =>
      rw [hs] at ih
      rw [show splitDotChars (c :: rest) =
          (if c = '.' then [] :: seg :: segs else (c :: seg) :: segs) from by
        rw [show splitDotChars (c :: rest) =
            (match splitDotChars rest with
              | seg :: segs => if c = '.' then [] :: seg :: segs else (c :: seg) :: segs
              | [] => [[]]) from rfl, hs]]
      by_cases hc : c = '.'
      · subst hc
        rw [if_pos rfl]
        rw [show (([] : List Char) :: seg :: segs).map String.mk =
            String.mk [] :: (seg :: segs).map String.mk from rfl]
        rw [joinDot_cons _ (by simp), ih]
        apply String.ext
        rw [append_dot_data]
        rfl
      · rw [if_neg hc]
        cases segs with
        | nil =>
          have hseg : String.mk seg = String.mk rest := ih
          have hseg' : seg = rest := by
            have := congrArg String.data hseg
            simpa using this
          rw [show ((c :: seg) :: ([] : List (List Char))).map String.mk =
              [String.mk (c :: seg)] from rfl]
          rw [show joinDot [String.mk (c :: seg)] = String.mk (c :: seg) from rfl, hseg']
        | cons z zs =>
          rw [show ((c :: seg) :: z :: zs).map String.mk =
              String.mk (c :: seg) :: (z :: zs).map String.mk from rfl]
          rw [joinDot_cons _ (by simp)]
          rw [List.map_cons, joinDot_cons _ (by simp)] at ih
          apply String.ext
          rw [append_dot_data]
          have ihd := congrArg String.data ih
          rw [append_dot_data] at ihd
          show (c :: seg) ++ '.' :: (joinDot ((z :: zs).map String.mk)).data = c :: rest
          rw [show (String.mk seg).data = seg from rfl,
            show (String.mk rest).data = rest from rfl] at ihd
          rw [List.cons_append, ihd]

/-- `segments.join('.')` inverts `key.split('.')`. -/
theorem joinDot_splitDot (s : String) : joinDot (splitDot s) = s := by
  rw [splitDot, joinDot_map_mk_splitDotChars]

theorem splitDotChars_no_dot (l : List Char) :
    ∀ seg ∈ splitDotChars l, '.' ∉ seg := by
  induction l with
  | nil =>
    intro seg hseg
    rw [show splitDotChars [] = [[]] from rfl] at hseg
    simp at hseg
    simp [hseg]
  | cons c rest ih =>
    cases hs : splitDotChars rest with
    | nil => exact absurd hs (splitDotChars_ne_nil rest)
    | cons seg0 segs =>
      intro seg hseg
      rw [show splitDotChars (c :: rest) =
          (match splitDotChars rest with
            | seg :: segs => if c = '.' then [] :: seg :: segs else (c :: seg) :: segs
            | [] => [[]]) from rfl, hs] at hseg
      replace hseg : seg ∈
          (if c = '.' then [] :: seg0 :: segs else (c :: seg0) :: segs) := hseg
      rw [hs] at ih
      by_cases hc : c = '.'
      · rw [if_pos hc] at hseg
        rcases List.mem_cons.mp hseg with h | h
        · simp [h]
        · exact ih seg h
      · rw [if_neg hc] at hseg
        rcases List.mem_cons.mp hseg with h | h
        · subst h
          intro hmem
          rcases List.mem_cons.mp hmem with h' | h'
          · exact hc h'.symm
          · exact ih seg0 (by simp) h'
        · exact ih seg (List.mem_cons_of_mem _ h)

theorem splitDot_no_dot (s : String) :
    ∀ seg ∈ splitDot s, containsDot seg = false := by
  intro seg hseg
  rw [splitDot] at hseg
  obtain ⟨l, hl, rfl⟩ := List.mem_map.mp hseg
  have := splitDotChars_no_dot s.data l hl
  simp [containsDot]
  exact this

theorem dropLast_append_getLastD {α : Type} (d : α) :
    ∀ (l : List α), l ≠ [] → l.dropLast ++ [l.getLastD d] = l
  | [], h => absurd rfl h
  | [x], _ => rfl
  | x :: y :: rest, _ => by
    rw [show (x :: y :: rest).dropLast = x :: (y :: rest).dropLast from rfl,
      show (x :: y :: rest).getLastD d = (y :: rest).getLastD d from by
        simp [List.getLastD_cons]]
    rw [List.cons_append, dropLast_append_getLastD d (y :: rest) (by simp)]

theorem joinDot_append : ∀ (a b : List String), a ≠ [] → b ≠ [] →
    joinDot (a ++ b) = joinDot a ++ "." ++ joinDot b
  | [], _, ha, _ => absurd rfl ha
  | [x], b, _, hb => by
    rw [List.singleton_append, joinDot_cons x hb]
    rfl
  | x :: y :: rest, b, _, hb => by
    rw [List.cons_append, joinDot_cons x (by simp),
      joinDot_cons x (show y :: rest ≠ [] by simp),
      joinDot_append (y :: rest) b (by simp) hb,
      ← string_append_assoc, ← string_append_assoc]

theorem beginsWith_append_dot (x : List Char) (t : List Char) :
    beginsWith (x ++ ['.']) (x ++ '.' :: t) = true := by
  induction x with
  | nil => simp [beginsWith]
  | cons c rest ih => simpa [beginsWith] using ih

theorem dotAncestor_append (a b : String) : dotAncestor a (a ++ "." ++ b) = true := by
  rw [dotAncestor, append_dot_data]
  exact beginsWith_append_dot a.data b.data

/-! ### Association-list structure lemmas for the rewrite-pass invariant -/

theorem alook_split {α : Type} {k : String} {v : α} :
    ∀ {l : List (String × α)}, alook k l = some v →
      ∃ A B, l = A ++ (k, v) :: B ∧ alook k A = none ∧
        ∀ w, aset k w l = A ++ (k, w) :: B := by
  intro l
  induction l with
  | nil => intro h; cases h
  | cons p rest ih =>
    obtain ⟨k', v'⟩ := p
    intro h
    by_cases hk : k' = k
    · subst hk
      rw [show alook k' ((k', v') :: rest) = some v' from by simp [alook]] at h
      obtain rfl : v' = v := by injection h
      exact ⟨[], rest, rfl, rfl, fun w => by simp [aset]⟩
    · rw [show alook k ((k', v') :: rest) = alook k rest from by simp [alook, hk]] at h
      obtain ⟨A, B, hl, hA, hset⟩ := ih h
      refine ⟨(k', v') :: A, B, by rw [hl, List.cons_append], ?_, fun w => ?_⟩
      · simp [alook, hk, hA]
      · rw [show aset k w ((k', v') :: rest) = (k', v') :: aset k w rest from by
          simp [aset, hk], hset w, List.cons_append]

theorem adel_of_none {α : Type} {k : String} :
    ∀ {l : List (String × α)}, alook k l = none → adel k l = l := by
  intro l
  induction l with
  | nil => intro _; rfl
  | cons p rest ih =>
    obtain ⟨k', v'⟩ := p
    intro h
    by_cases hk : k' = k
    · subst hk; simp [alook] at h
    · rw [show alook k ((k', v') :: rest) = alook k rest from by simp [alook, hk]] at h
      simp [adel, hk, ih h]

theorem aset_map_fst_nodup {α : Type} (k : String) (v : α) :
    ∀ {l : List (String × α)}, (l.map Prod.fst).Nodup →
      ((aset k v l).map Prod.fst).Nodup := by
  intro l
  induction l with
  | nil => intro _; simp [aset]
  | cons p rest ih =>
    obtain ⟨k', v'⟩ := p
    intro h
    simp only [List.map_cons, List.nodup_cons] at h
    by_cases hk : k' = k
    · subst hk
      simpa [aset, List.nodup_cons] using h
    · simp only [aset, if_neg hk, List.map_cons, List.nodup_cons]
      refine ⟨?_, ih h.2⟩
      intro hmem
      rcases hs : alook k rest with _ | w
      · rw [aset_append_fresh hs, List.map_append] at hmem
        rcases List.mem_append.mp hmem with hmem | hmem
        · exact h.1 hmem
        · simp at hmem
          exact hk hmem
      · obtain ⟨A, B, hl, _, hset⟩ := alook_split hs
        rw [hset v] at hmem
        apply h.1
        rw [hl]
        simpa using hmem

theorem adel_sublist {α : Type} (k : String) :
    ∀ (l : List (String × α)), List.Sublist (adel k l) l := by
  intro l
  induction l with
  | nil => simp [adel]
  | cons p rest ih =>
    obtain ⟨k', v'⟩ := p
    by_cases hk : k' = k
    · rw [show adel k ((k', v') :: rest) = adel k rest from by simp [adel, hk]]
      exact ih.cons _
    · rw [show adel k ((k', v') :: rest) = (k', v') :: adel k rest from by simp [adel, hk]]
      exact ih.cons₂ _

theorem adel_map_fst_nodup {α : Type} (k : String) {l : List (String × α)}
    (h : (l.map Prod.fst).Nodup) : ((adel k l).map Prod.fst).Nodup :=
  List.Nodup.sublist (List.Sublist.map Prod.fst (adel_sublist k l)) h

theorem alook_eq_some_iff_mem {α : Type} {k : String} {v : α} :
    ∀ {l : List (String × α)}, (l.map Prod.fst).Nodup →
      (alook k l = some v ↔ (k, v) ∈ l) := by
  intro l
  induction l with
  | nil => intro _; simp [alook]
  | cons p rest ih =>
    obtain ⟨k', v'⟩ := p
    intro hN
    simp only [List.map_cons, List.nodup_cons] at hN
    by_cases hk : k' = k
    · subst hk
      constructor
      · intro h
        rw [show alook k' ((k', v') :: rest) = some v' from by simp [alook]] at h
        obtain rfl : v' = v := by injection h
        simp
      · intro hmem
        rcases List.mem_cons.mp hmem with h | h
        · have hv : v = v' := congrArg Prod.snd h
          subst hv
          simp [alook]
        · exact absurd (List.mem_map_of_mem Prod.fst h) (by simpa using hN.1)
    · constructor
      · intro h
        rw [show alook k ((k', v') :: rest) = alook k rest from by simp [alook, hk]] at h
        exact List.mem_cons_of_mem _ ((ih hN.2).mp h)
      · intro hmem
        rcases List.mem_cons.mp hmem with h | h
        · exact absurd (congrArg Prod.fst h).symm hk
        · rw [show alook k ((k', v') :: rest) = alook k rest from by simp [alook, hk]]
          exact (ih hN.2).mpr h

theorem alook_perm {α : Type} {l l' : List (String × α)} (hp : l.Perm l')
    (hN : (l.map Prod.fst).Nodup) (k : String) : alook k l = alook k l' := by
  have hN' : (l'.map Prod.fst).Nodup := (hp.map Prod.fst).nodup_iff.mp hN
  cases h : alook k l with
  | some v =>
    have hmem := (alook_eq_some_iff_mem hN).mp h
    have := (alook_eq_some_iff_mem hN').mpr (hp.mem_iff.mp hmem)
    rw [this]
  | none =>
    rw [alook_eq_none_iff] at h
    have : alook k l' = none := by
      rw [alook_eq_none_iff]
      intro hmem
      exact h ((hp.map Prod.fst).mem_iff.mpr hmem)
    rw [this]

/-! ### Leaves membership and flat data -/

mutual
theorem leavesF_not_obj : ∀ (fields : List (String × JSValue)) (pv : List String × JSValue),
    pv ∈ leavesF fields → ∀ g, pv.2 ≠ .obj g
  | [], pv, h => by simp [leavesF] at h
  | (k, v) :: rest, pv, h => by
    rw [show leavesF ((k, v) :: rest) = leavesV k v ++ leavesF rest from rfl] at h
    rcases List.mem_append.mp h with h | h
    · exact leavesV_not_obj k v pv h
    · exact leavesF_not_obj rest pv h

theorem leavesV_not_obj : ∀ (k : String) (v : JSValue) (pv : List String × JSValue),
    pv ∈ leavesV k v → ∀ g, pv.2 ≠ .obj g
  | k, .obj f, pv, h => by
    rw [show leavesV k (.obj f) =
        (leavesF f).map (fun pv => (k :: pv.1, pv.2)) from rfl] at h
    obtain ⟨q, hq, rfl⟩ := List.mem_map.mp h
    exact leavesF_not_obj f q hq
  | k, .str s, pv, h => by simp [leavesV] at h; intro g; simp [h]
  | k, .file n z, pv, h => by simp [leavesV] at h; intro g; simp [h]
  | k, .undef, pv, h => by simp [leavesV] at h; intro g; simp [h]
  | k, .null, pv, h => by simp [leavesV] at h; intro g; simp [h]
  | k, .arr l, pv, h => by simp [leavesV] at h; intro g; simp [h]
end

theorem alook_leaf_mem {k : String} {fields : List (String × JSValue)} {w : JSValue}
    (h : alook k fields = some w) (hno : ∀ g, w ≠ .obj g) :
    ([k], w) ∈ leavesF fields := by
  obtain ⟨A, B, hl, _, _⟩ := alook_split h
  rw [hl, leavesF_append]
  apply List.mem_append.mpr
  right
  rw [show leavesF ((k, w) :: B) = leavesV k w ++ leavesF B from rfl]
  apply List.mem_append.mpr
  left
  cases w <;> first | exact absurd rfl (hno _) | simp [leavesV]

theorem alook_obj_leaves {k : String} {fields f : List (String × JSValue)}
    (h : alook k fields = some (.obj f)) :
    ∀ pv ∈ leavesF f, (k :: pv.1, pv.2) ∈ leavesF fields := by
  obtain ⟨A, B, hl, _, _⟩ := alook_split h
  intro pv hpv
  rw [hl, leavesF_append]
  apply List.mem_append.mpr
  right
  rw [show leavesF ((k, .obj f) :: B) = leavesV k (.obj f) ++ leavesF B from rfl]
  apply List.mem_append.mpr
  left
  rw [show leavesV k (.obj f) = (leavesF f).map (fun pv => (k :: pv.1, pv.2)) from rfl]
  exact List.mem_map_of_mem _ hpv

theorem leafJoins_flat : ∀ (data : List (String × JSValue)),
    (∀ p ∈ data, ∀ g, p.2 ≠ JSValue.obj g) → leafJoins data = data := by
  intro data
  induction data with
  | nil => intro _; rfl
  | cons p rest ih =>
    obtain ⟨k, v⟩ := p
    intro h
    rw [leafJoins, show leavesF ((k, v) :: rest) = leavesV k v ++ leavesF rest from rfl,
      List.map_append]
    have hv : leavesV k v = [([k], v)] := by
      have hne := h (k, v) (by simp)
      cases v <;> first | rfl | exact absurd rfl (hne _)
    rw [hv]
    rw [show ([([k], v)] : List (List String × JSValue)).map
        (fun pv => (joinDot pv.1, pv.2)) = [(k, v)] from rfl]
    rw [show (leavesF rest).map (fun pv => (joinDot pv.1, pv.2)) = leafJoins rest from rfl,
      ih (fun p hp => h p (List.mem_cons_of_mem _ hp))]
    rfl

/-! ### Structure of the grouping pass output -/

theorem storeFirst_not_obj (policy : ConvertEmptyToValue) (v : FormValue) :
    ∀ g, storeFirst policy v ≠ .obj g := by
  intro g
  unfold storeFirst
  split
  · cases v <;> simp [FormValue.toJS]
  · split
    · simp
    · split
      · simp
      · split
        · simp
        · cases v <;> simp [FormValue.toJS]

theorem mem_aupd {α : Type} {k : String} {f : α → α} :
    ∀ {l : List (String × α)} {q : String × α}, q ∈ aupd k f l →
      q ∈ l ∨ ∃ q' ∈ l, q = (q'.1, f q'.2) := by
  intro l
  induction l with
  | nil => intro q h; simp [aupd] at h
  | cons p rest ih =>
    obtain ⟨k', v'⟩ := p
    intro q h
    by_cases hk : k' = k
    · rw [show aupd k f ((k', v') :: rest) = (k', f v') :: rest from by
        simp [aupd, hk]] at h
      rcases List.mem_cons.mp h with h | h
      · exact Or.inr ⟨(k', v'), by simp, h⟩
      · exact Or.inl (List.mem_cons_of_mem _ h)
    · rw [show aupd k f ((k', v') :: rest) = (k', v') :: aupd k f rest from by
        simp [aupd, hk]] at h
      rcases List.mem_cons.mp h with h | h
      · exact Or.inl (by simp [h])
      · rcases ih h with h' | ⟨q', hq', rfl⟩
        · exact Or.inl (List.mem_cons_of_mem _ h')
        · exact Or.inr ⟨q', List.mem_cons_of_mem _ hq', rfl⟩

theorem decodePass1_not_obj (es : List (String × FormValue))
    (policy : ConvertEmptyToValue) :
    ∀ p ∈ decodePass1 es policy, ∀ g, p.2 ≠ JSValue.obj g := by
  suffices h : ∀ data, (∀ p ∈ data, ∀ g, p.2 ≠ JSValue.obj g) →
      ∀ p ∈ es.foldl (decodeStep policy) data, ∀ g, p.2 ≠ JSValue.obj g by
    exact h [] (by simp)
  induction es with
  | nil => intro data hd p hp; exact hd p hp
  | cons e es ih =>
    intro data hd p hp
    rw [List.foldl_cons] at hp
    refine ih _ ?_ p hp
    intro q hq
    unfold decodeStep at hq
    split at hq
    · rcases List.mem_append.mp hq with h | h
      · exact hd q h
      · simp at h
        subst h
        exact storeFirst_not_obj policy e.2
    · rcases mem_aupd hq with h | ⟨q', _, rfl⟩
      · exact hd q h
      · intro g
        simp [pushValue]
        cases q'.2 <;> simp [pushValue]

theorem decodePass1_nodup (es : List (String × FormValue))
    (policy : ConvertEmptyToValue) :
    ((decodePass1 es policy).map Prod.fst).Nodup := by
  suffices h : ∀ data, ((data.map Prod.fst : List String)).Nodup →
      (((es.foldl (decodeStep policy) data).map Prod.fst : List String)).Nodup by
    exact h [] (by simp)
  induction es with
  | nil => intro data hd; exact hd
  | cons e es ih =>
    intro data hd
    rw [List.foldl_cons]
    refine ih _ ?_
    unfold decodeStep
    split
    · rename_i hfresh
      rw [List.map_append]
      rw [List.nodup_append]
      refine ⟨hd, by simp, ?_⟩
      intro a ha hb
      simp at hb
      subst hb
      rw [hasKey_eq_isSome] at hfresh
      have : alook e.1 data = none := by
        cases h : alook e.1 data
        · rfl
        · rw [h] at hfresh; simp at hfresh
      rw [alook_eq_none_iff] at this
      exact this ha
    · rw [aupd_map_fst]
      exact hd

/-! ### Grafting a dotted path into the decoded tree -/

theorem leavesV_not_obj_eq {v : JSValue} (k : String) (h : ∀ g, v ≠ JSValue.obj g) :
    leavesV k v = [([k], v)] := by
  cases v <;> first | rfl | exact absurd rfl (h _)

theorem mem_leavesF_of_mem : ∀ {fields : List (String × JSValue)} {e : String × JSValue},
    e ∈ fields → ∀ pv ∈ leavesV e.1 e.2, pv ∈ leavesF fields := by
  intro fields
  induction fields with
  | nil => intro e he; simp at he
  | cons p rest ih =>
    obtain ⟨k0, v0⟩ := p
    intro e he pv hpv
    rcases List.mem_cons.mp he with h | h
    · subst h
      rw [show leavesF ((k0, v0) :: rest) = leavesV k0 v0 ++ leavesF rest from rfl]
      exact List.mem_append.mpr (Or.inl hpv)
    · rw [show leavesF ((k0, v0) :: rest) = leavesV k0 v0 ++ leavesF rest from rfl]
      exact List.mem_append.mpr (Or.inr (ih h pv hpv))

theorem adel_append_left {α : Type} {k : String} :
    ∀ {A : List (String × α)}, alook k A = none →
      ∀ (rest : List (String × α)), adel k (A ++ rest) = A ++ adel k rest := by
  intro A
  induction A with
  | nil => intro _ rest; rfl
  | cons p A2 ih =>
    obtain ⟨k1, v1⟩ := p
    intro h rest
    rw [alook] at h
    by_cases hk : k1 = k
    · rw [if_pos hk] at h; exact absurd h (by simp)
    · rw [if_neg hk] at h
      rw [List.cons_append]
      rw [show adel k ((k1, v1) :: (A2 ++ rest)) = (k1, v1) :: adel k (A2 ++ rest) from by
        simp [adel, hk]]
      rw [ih h rest, List.cons_append]

/-- Deleting a flat binding removes exactly its leaves (modulo order). -/
theorem adel_leaves {k : String} {v : JSValue} {l : List (String × JSValue)}
    (hN : (l.map Prod.fst).Nodup) (h : alook k l = some v) :
    (leavesF l).Perm (leavesV k v ++ leavesF (adel k l)) := by
  obtain ⟨A, B, hl, hA, _⟩ := alook_split h
  subst hl
  have hkB : k ∉ B.map Prod.fst := by
    rw [List.map_append, List.map_cons] at hN
    have h2 := (List.nodup_append.mp hN).2.1
    exact (List.nodup_cons.mp h2).1
  have hadel : adel k (A ++ (k, v) :: B) = A ++ B := by
    rw [adel_append_left hA]
    congr 1
    rw [show adel k ((k, v) :: B) = adel k B from by simp [adel]]
    exact adel_of_none ((alook_eq_none_iff _ _).mpr hkB)
  rw [hadel, leavesF_append, leavesF_append,
    show leavesF ((k, v) :: B) = leavesV k v ++ leavesF B from rfl]
  rw [show leavesF A ++ (leavesV k v ++ leavesF B) =
      (leavesF A ++ leavesV k v) ++ leavesF B from (List.append_assoc _ _ _).symm]
  refine ((List.perm_append_comm.append_right (leavesF B)).trans ?_)
  rw [List.append_assoc]

theorem canPlace_nil : ∀ (rest : List String) (lk : String), canPlace [] rest lk := by
  intro rest lk
  cases rest with
  | nil => exact Or.inl rfl
  | cons r rs => exact Or.inl rfl

/-- The walk precondition holds as soon as no existing leaf path is
comparable (by the segment-prefix order) with the grafted path. -/
theorem canPlace_of_no_leaf : ∀ (keys : List String) (fields : List (String × JSValue))
    (lk : String),
    (∀ pv ∈ leavesF fields, (¬ ∃ t, pv.1 ++ t = keys ++ [lk]) ∧
      (¬ ∃ t, (keys ++ [lk]) ++ t = pv.1)) →
    canPlace fields keys lk
  | [], fields, lk, h => by
    show alook lk fields = none ∨
      ∃ f, alook lk fields = some (.obj f) ∧ leavesF f = []
    cases hlk : alook lk fields with
    | none => exact Or.inl rfl
    | some w =>
      cases w with
      | obj f =>
        cases hf : leavesF f with
        | nil => exact Or.inr ⟨f, rfl, hf⟩
        | cons pv0 rest2 =>
          exfalso
          have hmem : pv0 ∈ leavesF f := by rw [hf]; simp
          have hmem2 := alook_obj_leaves hlk pv0 hmem
          exact (h _ hmem2).2 ⟨pv0.1, rfl⟩
      | str s =>
        exact absurd ⟨[], by simp⟩
          (h _ (alook_leaf_mem hlk (fun g h2 => JSValue.noConfusion h2))).1
      | file n z =>
        exact absurd ⟨[], by simp⟩
          (h _ (alook_leaf_mem hlk (fun g h2 => JSValue.noConfusion h2))).1
      | undef =>
        exact absurd ⟨[], by simp⟩
          (h _ (alook_leaf_mem hlk (fun g h2 => JSValue.noConfusion h2))).1
      | null =>
        exact absurd ⟨[], by simp⟩
          (h _ (alook_leaf_mem hlk (fun g h2 => JSValue.noConfusion h2))).1
      | arr l2 =>
        exact absurd ⟨[], by simp⟩
          (h _ (alook_leaf_mem hlk (fun g h2 => JSValue.noConfusion h2))).1
  | k :: rest, fields, lk, h => by
    show alook k fields = none ∨
      ∃ inner, alook k fields = some (.obj inner) ∧ canPlace inner rest lk
    cases hk : alook k fields with
    | none => exact Or.inl rfl
    | some w =>
      cases w with
      | obj inner =>
        refine Or.inr ⟨inner, rfl, canPlace_of_no_leaf rest inner lk ?_⟩
        intro pv hpv
        have hm := alook_obj_leaves hk pv hpv
        have h2 := h _ hm
        constructor
        · intro hex
          obtain ⟨t, ht⟩ := hex
          exact h2.1 ⟨t, by
            show k :: (pv.1 ++ t) = k :: (rest ++ [lk])
            rw [ht]⟩
        · intro hex
          obtain ⟨t, ht⟩ := hex
          exact h2.2 ⟨t, by
            show k :: ((rest ++ [lk]) ++ t) = k :: pv.1
            rw [ht]⟩
      | str s =>
        exact absurd ⟨rest ++ [lk], rfl⟩
          (h _ (alook_leaf_mem hk (fun g h2 => JSValue.noConfusion h2))).1
      | file n z =>
        exact absurd ⟨rest ++ [lk], rfl⟩
          (h _ (alook_leaf_mem hk (fun g h2 => JSValue.noConfusion h2))).1
      | undef =>
        exact absurd ⟨rest ++ [lk], rfl⟩
          (h _ (alook_leaf_mem hk (fun g h2 => JSValue.noConfusion h2))).1
      | null =>
        exact absurd ⟨rest ++ [lk], rfl⟩
          (h _ (alook_leaf_mem hk (fun g h2 => JSValue.noConfusion h2))).1
      | arr l2 =>
        exact absurd ⟨rest ++ [lk], rfl⟩
          (h _ (alook_leaf_mem hk (fun g h2 => JSValue.noConfusion h2))).1

/-- Under the walk precondition, `setPath` succeeds and grafts exactly one
new leaf, changing nothing else: the leaves gain the grafted path (up to
order), top-level key uniqueness is preserved, and every top-level key other
than the path head keeps its binding. -/
theorem setPath_graft : ∀ (keys : List String) (fields : List (String × JSValue))
    (lk : String) (v : JSValue),
    canPlace fields keys lk → (∀ g, v ≠ JSValue.obj g) →
    ∃ fields', setPath fields keys lk v = .ok fields' ∧
      (leavesF fields').Perm ((keys ++ [lk], v) :: leavesF fields) ∧
      ((fields.map Prod.fst).Nodup → (fields'.map Prod.fst).Nodup) ∧
      ∀ q, q ≠ (keys ++ [lk]).headI → alook q fields' = alook q fields
  | [], fields, lk, v, hcp, hv => by
    refine ⟨aset lk v fields, rfl, ?_, fun h => aset_map_fst_nodup lk v h, ?_⟩
    · rcases hcp with hnone | ⟨f, hf, hfleaf⟩
      · rw [aset_append_fresh hnone, leavesF_append,
          show leavesF [(lk, v)] = leavesV lk v ++ leavesF [] from rfl,
          leavesV_not_obj_eq lk hv]
        rw [show leavesF ([] : List (String × JSValue)) = [] from rfl, List.append_nil]
        exact List.perm_append_singleton _ _
      · obtain ⟨A, B, hl, hA, haset⟩ := alook_split hf
        rw [haset v, hl, leavesF_append, leavesF_append,
          show leavesF ((lk, JSValue.obj f) :: B) =
            leavesV lk (JSValue.obj f) ++ leavesF B from rfl,
          show leavesF ((lk, v) :: B) = leavesV lk v ++ leavesF B from rfl,
          leavesV_not_obj_eq lk hv,
          show leavesV lk (JSValue.obj f) =
            (leavesF f).map (fun pv => (lk :: pv.1, pv.2)) from rfl,
          hfleaf]
        simp only [List.map_nil, List.nil_append]
        exact List.perm_middle
    · intro q hq
      exact alook_aset_ne (Ne.symm hq) v fields
  | k :: rest, fields, lk, v, hcp, hv => by
    rcases hcp with hnone | ⟨inner, hinner, hcpInner⟩
    · obtain ⟨inner', hok, hperm, _, _⟩ :=
        setPath_graft rest [] lk v (canPlace_nil rest lk) hv
      have hstep : setPath fields (k :: rest) lk v =
          Except.ok (aset k (JSValue.obj inner') fields) := by
        simp only [setPath, hnone, hok, Bind.bind, Except.bind]
      refine ⟨aset k (JSValue.obj inner') fields, hstep, ?_,
        fun h => aset_map_fst_nodup k _ h, ?_⟩
      · rw [aset_append_fresh hnone, leavesF_append,
          show leavesF [(k, JSValue.obj inner')] =
            leavesV k (JSValue.obj inner') ++ leavesF [] from rfl,
          show leavesV k (JSValue.obj inner') =
            (leavesF inner').map (fun pv => (k :: pv.1, pv.2)) from rfl]
        rw [show leavesF ([] : List (String × JSValue)) = [] from rfl, List.append_nil]
        have hmap := hperm.map (fun pv : List String × JSValue => (k :: pv.1, pv.2))
        refine (List.Perm.append_left (leavesF fields) hmap).trans ?_
        exact List.perm_append_singleton _ _
      · intro q hq
        exact alook_aset_ne (Ne.symm hq) _ fields
    · obtain ⟨inner', hok, hperm, _, _⟩ :=
        setPath_graft rest inner lk v hcpInner hv
      have hstep : setPath fields (k :: rest) lk v =
          Except.ok (aset k (JSValue.obj inner') fields) := by
        simp only [setPath, hinner, hok, Bind.bind, Except.bind]
      refine ⟨aset k (JSValue.obj inner') fields, hstep, ?_,
        fun h => aset_map_fst_nodup k _ h, ?_⟩
      · obtain ⟨A, B, hl, hA, haset⟩ := alook_split hinner
        rw [haset (JSValue.obj inner'), hl, leavesF_append, leavesF_append,
          show leavesF ((k, JSValue.obj inner) :: B) =
            leavesV k (JSValue.obj inner) ++ leavesF B from rfl,
          show leavesF ((k, JSValue.obj inner') :: B) =
            leavesV k (JSValue.obj inner') ++ leavesF B from rfl,
          show leavesV k (JSValue.obj inner') =
            (leavesF inner').map (fun pv => (k :: pv.1, pv.2)) from rfl]
        have hmap := hperm.map (fun pv : List String × JSValue => (k :: pv.1, pv.2))
        have h1 := (List.Perm.append_left (leavesF A)
          (hmap.append_right (leavesF B)))
        refine h1.trans ?_
        rw [show ((((rest ++ [lk], v) :: leavesF inner).map
            (fun pv : List String × JSValue => (k :: pv.1, pv.2))) ++ leavesF B) =
            ((k :: (rest ++ [lk]), v) ::
              (leavesV k (JSValue.obj inner) ++ leavesF B)) from by
          rw [List.map_cons]; rfl]
        exact List.perm_middle
      · intro q hq
        exact alook_aset_ne (Ne.symm hq) _ fields

/-! ### The rewrite-pass fold invariant -/

/-- Running the rewrite pass over a snapshot whose keys are pairwise
non-ancestral: the fold succeeds, keeps top-level keys unique, and keeps
the dot-joined leaves a permutation of the snapshot. -/
theorem rewrite_fold_inv (S : List (String × JSValue))
    (hanc : ∀ a ∈ S.map Prod.fst, ∀ b ∈ S.map Prod.fst, dotAncestor a b = false)
    (hSnodup : (S.map Prod.fst).Nodup)
    (hSval : ∀ p ∈ S, ∀ g, p.2 ≠ JSValue.obj g) :
    ∀ (rem : List (String × JSValue)), (∀ e ∈ rem, e ∈ S) →
      ((rem.map Prod.fst).Nodup) →
      ∀ (T : List (String × JSValue)),
      ((T.map Prod.fst).Nodup) →
      (leafJoins T).Perm S →
      (∀ e ∈ rem, alook e.1 T = some e.2) →
      ∃ Tf, rem.foldlM rewriteEntry T = .ok Tf ∧
        ((Tf.map Prod.fst).Nodup) ∧ (leafJoins Tf).Perm S := by
  intro rem
  induction rem with
  | nil =>
    intro _ _ T hTn hTperm _
    exact ⟨T, rfl, hTn, hTperm⟩
  | cons e rem2 ih =>
    intro hmem hremN T hTn hTperm hTflat
    have heS : e ∈ S := hmem e (by simp)
    have hkS : e.1 ∈ S.map Prod.fst := List.mem_map_of_mem Prod.fst heS
    have hvne : ∀ g, e.2 ≠ JSValue.obj g := hSval e heS
    rw [List.foldlM_cons]
    by_cases hd : containsDot e.1
    case neg =>
      have hre : rewriteEntry T e = .ok T := by simp [rewriteEntry, hd]
      rw [hre]
      simp only [Bind.bind, Except.bind]
      refine ih (fun x hx => hmem x (List.mem_cons_of_mem _ hx)) ?_ T hTn hTperm
        (fun x hx => hTflat x (List.mem_cons_of_mem _ hx))
      rw [List.map_cons, List.nodup_cons] at hremN
      exact hremN.2
    case pos =>
      have hmemDot : '.' ∈ e.1.data := by simpa [containsDot] using hd
      have hlen2 : 2 ≤ (splitDot e.1).length := by
        simpa [splitDot] using splitDotChars_length_two hmemDot
      have hpne : splitDot e.1 ≠ [] := by
        intro h0; rw [h0] at hlen2; simp at hlen2
      have hrejoin : (splitDot e.1).dropLast ++ [(splitDot e.1).getLastD ""] =
          splitDot e.1 := dropLast_append_getLastD "" _ hpne
      have hJN : ((leafJoins T).map Prod.fst).Nodup :=
        (hTperm.map Prod.fst).nodup_iff.mpr hSnodup
      have hJoinMap : (leafJoins T).map Prod.fst =
          (leavesF T).map (fun pv => joinDot pv.1) := by
        rw [leafJoins, List.map_map]; rfl
      have hflatleaf : ([e.1], e.2) ∈ leavesF T :=
        alook_leaf_mem (hTflat e (by simp)) hvne
      have hleafkey : ∀ pv ∈ leavesF T, joinDot pv.1 ∈ S.map Prod.fst := by
        intro pv hpv
        have h1 : (joinDot pv.1, pv.2) ∈ leafJoins T := by
          rw [leafJoins]; exact List.mem_map_of_mem _ hpv
        exact List.mem_map_of_mem Prod.fst (hTperm.mem_iff.mp h1)
      have hinj := List.inj_on_of_nodup_map (hJoinMap ▸ hJN)
      have hnc : ∀ pv ∈ leavesF T, (¬ ∃ t, pv.1 ++ t = splitDot e.1) ∧
          (¬ ∃ t, splitDot e.1 ++ t = pv.1) := by
        intro pv hpv
        constructor
        · intro hex
          obtain ⟨t, ht⟩ := hex
          by_cases htn : t = []
          · subst htn
            rw [List.append_nil] at ht
            have hj : joinDot pv.1 = e.1 := by rw [ht, joinDot_splitDot]
            have heqv : pv = ([e.1], e.2) := hinj hpv hflatleaf hj
            have h1 := congrArg Prod.fst heqv
            rw [h1] at ht
            have h2 := congrArg List.length ht.symm
            simp at h2
            omega
          · have hpvne := leavesF_path_ne_nil T pv hpv
            have hkey : joinDot (pv.1 ++ t) = joinDot pv.1 ++ "." ++ joinDot t :=
              joinDot_append pv.1 t hpvne htn
            have he1 : e.1 = joinDot pv.1 ++ "." ++ joinDot t := by
              rw [← joinDot_splitDot e.1, ← ht, hkey]
            have hda : dotAncestor (joinDot pv.1) e.1 = true := by
              rw [he1]; exact dotAncestor_append _ _
            have hfa := hanc _ (hleafkey pv hpv) _ hkS
            simp [hfa] at hda
        · intro hex
          obtain ⟨t, ht⟩ := hex
          by_cases htn : t = []
          · subst htn
            rw [List.append_nil] at ht
            have hj : joinDot pv.1 = e.1 := by rw [← ht, joinDot_splitDot]
            have heqv : pv = ([e.1], e.2) := hinj hpv hflatleaf hj
            have h1 := congrArg Prod.fst heqv
            rw [h1] at ht
            have h2 := congrArg List.length ht
            simp at h2
            omega
          · have hkey : joinDot (splitDot e.1 ++ t) =
                joinDot (splitDot e.1) ++ "." ++ joinDot t :=
              joinDot_append _ t hpne htn
            have hj : joinDot pv.1 = e.1 ++ "." ++ joinDot t := by
              rw [← ht, hkey, joinDot_splitDot]
            have hda : dotAncestor e.1 (joinDot pv.1) = true := by
              rw [hj]; exact dotAncestor_append _ _
            have hfa := hanc _ hkS _ (hleafkey pv hpv)
            simp [hfa] at hda
      have hcp : canPlace T (splitDot e.1).dropLast ((splitDot e.1).getLastD "") := by
        apply canPlace_of_no_leaf
        rw [hrejoin]
        exact hnc
      obtain ⟨T1, hok, hT1perm, hT1nd, hT1look⟩ :=
        setPath_graft ((splitDot e.1).dropLast) T ((splitDot e.1).getLastD "") e.2 hcp hvne
      obtain ⟨p0, prest, hps⟩ : ∃ p0 prest, splitDot e.1 = p0 :: prest := by
        cases hsd : splitDot e.1 with
        | nil => exact absurd hsd hpne
        | cons a b => exact ⟨a, b, rfl⟩
      have hheadI : ((splitDot e.1).dropLast ++ [(splitDot e.1).getLastD ""]).headI = p0 := by
        rw [hrejoin, hps]; rfl
      have hp0dot : containsDot p0 = false :=
        splitDot_no_dot e.1 p0 (by rw [hps]; simp)
      have hp0ne : p0 ≠ e.1 := by
        intro h0; rw [h0, hd] at hp0dot; cases hp0dot
      have hprest_ne : prest ≠ [] := by
        intro h0; rw [hps, h0] at hlen2; simp at hlen2
      have he1p0 : e.1 = p0 ++ "." ++ joinDot prest := by
        conv_lhs => rw [← joinDot_splitDot e.1]
        rw [hps, joinDot_cons p0 hprest_ne]
      have hp0S : p0 ∉ S.map Prod.fst := by
        intro hmem0
        have hfa := hanc _ hmem0 _ hkS
        have hda : dotAncestor p0 e.1 = true := by
          rw [he1p0]; exact dotAncestor_append _ _
        simp [hfa] at hda
      have hre : rewriteEntry T e = .ok (adel e.1 T1) := by
        simp only [rewriteEntry, hd, if_true, hok, Bind.bind, Except.bind]
      rw [hre]
      simp only [Bind.bind, Except.bind]
      have hT1N : (T1.map Prod.fst).Nodup := hT1nd hTn
      have hT2N : ((adel e.1 T1).map Prod.fst).Nodup := adel_map_fst_nodup e.1 hT1N
      have hkT1 : alook e.1 T1 = some e.2 := by
        rw [hT1look e.1 (by rw [hheadI]; exact Ne.symm hp0ne)]
        exact hTflat e (by simp)
      have hadelperm : (leavesF T1).Perm (([e.1], e.2) :: leavesF (adel e.1 T1)) := by
        have h1 := adel_leaves hT1N hkT1
        rw [leavesV_not_obj_eq e.1 hvne] at h1
        exact h1
      have hT2perm : (leafJoins (adel e.1 T1)).Perm S := by
        have h1 : ((([e.1], e.2) : List String × JSValue) ::
            leavesF (adel e.1 T1)).Perm
            (((splitDot e.1).dropLast ++ [(splitDot e.1).getLastD ""], e.2) ::
              leavesF T) := hadelperm.symm.trans hT1perm
        have h2 := h1.map (fun pv : List String × JSValue => (joinDot pv.1, pv.2))
        rw [hrejoin] at h2
        simp only [List.map_cons] at h2
        rw [joinDot_splitDot] at h2
        have h3 := h2.cons_inv
        exact (show (leafJoins (adel e.1 T1)).Perm (leafJoins T) from h3).trans hTperm
      have hT2flat : ∀ x ∈ rem2, alook x.1 (adel e.1 T1) = some x.2 := by
        intro x hx
        have hxk_ne_e : x.1 ≠ e.1 := by
          intro h0
          rw [List.map_cons, List.nodup_cons] at hremN
          exact hremN.1 (h0 ▸ List.mem_map_of_mem Prod.fst hx)
        have hxk_ne_p0 : x.1 ≠ p0 := by
          intro h0
          exact hp0S
            (h0 ▸ List.mem_map_of_mem Prod.fst (hmem x (List.mem_cons_of_mem _ hx)))
        rw [alook_adel_ne (Ne.symm hxk_ne_e) T1,
          hT1look x.1 (by rw [hheadI]; exact hxk_ne_p0)]
        exact hTflat x (List.mem_cons_of_mem _ hx)
      refine ih (fun x hx => hmem x (List.mem_cons_of_mem _ hx)) ?_ (adel e.1 T1)
        hT2N hT2perm hT2flat
      rw [List.map_cons, List.nodup_cons] at hremN
      exact hremN.2

/-! ### Leaves of the canonicalized tree -/

theorem filterMap_rtb_map_cons (k : String) :
    ∀ (l : List (List String × JSValue)),
    (l.filterMap (fun pv => (roundTripLeaf pv.2).map (fun w => (pv.1, w)))).map
        (fun pv => (k :: pv.1, pv.2)) =
      (l.map (fun pv => (k :: pv.1, pv.2))).filterMap
        (fun pv => (roundTripLeaf pv.2).map (fun w => (pv.1, w))) := by
  intro l
  induction l with
  | nil => rfl
  | cons pv l2 ih =>
    obtain ⟨p1, v1⟩ := pv
    cases hr : roundTripLeaf v1 with
    | none => simp [List.filterMap_cons, hr, ih]
    | some w => simp [List.filterMap_cons, hr, ih]

mutual
theorem leavesF_canonFields : ∀ (fields : List (String × JSValue)),
    leavesF (jsonCanonFields fields) =
      (leavesF fields).filterMap (fun pv => (roundTripLeaf pv.2).map (fun w => (pv.1, w)))
  | [] => rfl
  | (k, v) :: rest => by
    rw [show leavesF ((k, v) :: rest) = leavesV k v ++ leavesF rest from rfl,
      List.filterMap_append]
    cases v with
    | undef =>
      rw [show jsonCanonFields ((k, JSValue.undef) :: rest) = jsonCanonFields rest from rfl,
        leavesF_canonFields rest,
        show (leavesV k JSValue.undef).filterMap
          (fun pv => (roundTripLeaf pv.2).map (fun w => (pv.1, w))) = [] from rfl,
        List.nil_append]
    | obj f =>
      rw [show jsonCanonFields ((k, JSValue.obj f) :: rest) =
          (k, jsonCanon (JSValue.obj f)) :: jsonCanonFields rest from rfl,
        show leavesF ((k, jsonCanon (JSValue.obj f)) :: jsonCanonFields rest) =
          leavesV k (jsonCanon (JSValue.obj f)) ++ leavesF (jsonCanonFields rest) from rfl,
        leavesF_canonFields rest, leavesV_canonObj k f]
    | str s =>
      rw [show jsonCanonFields ((k, JSValue.str s) :: rest) =
          (k, JSValue.str s) :: jsonCanonFields rest from rfl,
        show leavesF ((k, JSValue.str s) :: jsonCanonFields rest) =
          leavesV k (JSValue.str s) ++ leavesF (jsonCanonFields rest) from rfl,
        leavesF_canonFields rest]
      rfl
    | null =>
      rw [show jsonCanonFields ((k, JSValue.null) :: rest) =
          (k, JSValue.null) :: jsonCanonFields rest from rfl,
        show leavesF ((k, JSValue.null) :: jsonCanonFields rest) =
          leavesV k JSValue.null ++ leavesF (jsonCanonFields rest) from rfl,
        leavesF_canonFields rest]
      rfl
    | arr l2 =>
      rw [show jsonCanonFields ((k, JSValue.arr l2) :: rest) =
          (k, JSValue.arr (jsonCanonList l2)) :: jsonCanonFields rest from rfl,
        show leavesF ((k, JSValue.arr (jsonCanonList l2)) :: jsonCanonFields rest) =
          leavesV k (JSValue.arr (jsonCanonList l2)) ++ leavesF (jsonCanonFields rest)
          from rfl,
        leavesF_canonFields rest]
      rfl
    | file n z =>
      rw [show jsonCanonFields ((k, JSValue.file n z) :: rest) =
          (k, JSValue.obj []) :: jsonCanonFields rest from rfl,
        show leavesF ((k, JSValue.obj []) :: jsonCanonFields rest) =
          leavesV k (JSValue.obj []) ++ leavesF (jsonCanonFields rest) from rfl,
        leavesF_canonFields rest]
      rfl

theorem leavesV_canonObj : ∀ (k : String) (f : List (String × JSValue)),
    leavesV k (jsonCanon (JSValue.obj f)) =
      (leavesV k (JSValue.obj f)).filterMap
        (fun pv => (roundTripLeaf pv.2).map (fun w => (pv.1, w)))
  | k, f => by
    rw [show jsonCanon (JSValue.obj f) = JSValue.obj (jsonCanonFields f) from rfl,
      show leavesV k (JSValue.obj (jsonCanonFields f)) =
        (leavesF (jsonCanonFields f)).map (fun pv => (k :: pv.1, pv.2)) from rfl,
      leavesF_canonFields f,
      show leavesV k (JSValue.obj f) =
        (leavesF f).map (fun pv => (k :: pv.1, pv.2)) from rfl,
      filterMap_rtb_map_cons k]
end

theorem leafJoins_canon (fields : List (String × JSValue)) :
    leafJoins (jsonCanonFields fields) = (leafJoins fields).filterMap roundTripBinding := by
  rw [leafJoins, leafJoins, leavesF_canonFields fields, List.map_filterMap,
    List.filterMap_map]
  congr 1
  funext pv
  obtain ⟨p1, v1⟩ := pv
  cases hr : roundTripLeaf v1 with
  | none => simp [Function.comp, roundTripBinding, hr]
  | some w => simp [Function.comp, roundTripBinding, hr]

theorem filterMap_rtb_fst_sublist : ∀ (l : List (String × JSValue)),
    List.Sublist ((l.filterMap roundTripBinding).map Prod.fst) (l.map Prod.fst)
  | [] => List.Sublist.refl _
  | (k, v) :: rest => by
    cases hr : roundTripLeaf v with
    | none =>
      rw [show ((k, v) :: rest).filterMap roundTripBinding =
          rest.filterMap roundTripBinding from by
        simp [List.filterMap_cons, roundTripBinding, hr]]
      exact List.Sublist.cons _ (filterMap_rtb_fst_sublist rest)
    | some w =>
      rw [show ((k, v) :: rest).filterMap roundTripBinding =
          (k, w) :: rest.filterMap roundTripBinding from by
        simp [List.filterMap_cons, roundTripBinding, hr]]
      exact List.Sublist.cons₂ _ (filterMap_rtb_fst_sublist rest)

theorem alook_filterMap_rtb : ∀ {l : List (String × JSValue)},
    ((l.map Prod.fst).Nodup) → ∀ (q : String),
      alook q (l.filterMap roundTripBinding) = (alook q l).bind roundTripLeaf := by
  intro l
  induction l with
  | nil => intro _ q; rfl
  | cons p rest ih =>
    obtain ⟨k, v⟩ := p
    intro hN q
    rw [List.map_cons, List.nodup_cons] at hN
    by_cases hk : k = q
    · subst hk
      rw [show alook k ((k, v) :: rest) = some v from by simp [alook]]
      cases hr : roundTripLeaf v with
      | none =>
        rw [show ((k, v) :: rest).filterMap roundTripBinding =
            rest.filterMap roundTripBinding from by
          simp [List.filterMap_cons, roundTripBinding, hr]]
        rw [show (Option.some v).bind roundTripLeaf = none from by simp [hr],
          alook_eq_none_iff]
        intro hmem
        exact hN.1 ((filterMap_rtb_fst_sublist rest).subset hmem)
      | some w =>
        rw [show ((k, v) :: rest).filterMap roundTripBinding =
            (k, w) :: rest.filterMap roundTripBinding from by
          simp [List.filterMap_cons, roundTripBinding, hr]]
        simp [alook, hr]
    · rw [show alook q ((k, v) :: rest) = alook q rest from by simp [alook, hk]]
      cases hr : roundTripLeaf v with
      | none =>
        rw [show ((k, v) :: rest).filterMap roundTripBinding =
            rest.filterMap roundTripBinding from by
          simp [List.filterMap_cons, roundTripBinding, hr]]
        exact ih hN.2 q
      | some w =>
        rw [show ((k, v) :: rest).filterMap roundTripBinding =
            (k, w) :: rest.filterMap roundTripBinding from by
          simp [List.filterMap_cons, roundTripBinding, hr]]
        rw [show alook q ((k, w) :: rest.filterMap roundTripBinding) =
            alook q (rest.filterMap roundTripBinding) from by simp [alook, hk]]
        exact ih hN.2 q

/-- A tree all of whose leaf joins avoid a leading separator satisfies the
empty-key side condition of the flattener. -/
theorem emptyKeyObjOk_of_leaf_joins (C : List (String × JSValue))
    (h : ∀ pv ∈ leavesF C, (joinDot pv.1).data.head? ≠ some '.') :
    emptyKeyObjOk C = true := by
  rw [emptyKeyObjOk, List.all_eq_true]
  intro p hp
  obtain ⟨k0, v0⟩ := p
  by_cases hk : k0 = ""
  case neg => simp [hk]
  case pos =>
    subst hk
    cases v0 with
    | obj g =>
      cases hg : leavesF g with
      | nil => simp [hg]
      | cons pv0 rest2 =>
        exfalso
        have hpv0 : pv0 ∈ leavesF g := by rw [hg]; simp
        have h1 : (("" : String) :: pv0.1, pv0.2) ∈ leavesV "" (JSValue.obj g) := by
          rw [show leavesV "" (JSValue.obj g) =
              (leavesF g).map (fun pv => ("" :: pv.1, pv.2)) from rfl]
          exact List.mem_map_of_mem _ hpv0
        have h2 := mem_leavesF_of_mem hp _ h1
        have h3 : (joinDot (("" : String) :: pv0.1)).data.head? ≠ some '.' := h _ h2
        apply h3
        have hne := leavesF_path_ne_nil g pv0 hpv0
        rw [joinDot_cons "" hne, append_dot_data]
        rfl
    | str s => simp
    | file n z => simp
    | undef => simp
    | null => simp
    | arr l2 => simp

theorem leafJoins_map_fst (F : List (String × JSValue)) :
    (leafJoins F).map Prod.fst = (leavesF F).map (fun pv => joinDot pv.1) := by
  rw [leafJoins, List.map_map]; rfl

/-! ### Claim C4: the decode/serialize round trip -/

/-- C4 (counterexample): a submission consisting of a single `File` entry
decodes to a mapping binding the field name to the File — a defined,
non-`undefined` value — yet serializing that decoded object drops the key
entirely (the File canonicalizes to an empty mapping, which the flattener
erases), so the claimed key set is not restored. -/
theorem c4_counterexample :
    decodeFormData [("a", FormValue.file "f.txt" 3)] "null" =
      .ok [("a", JSValue.file "f.txt" 3)] ∧
    JSValue.file "f.txt" 3 ≠ JSValue.undef ∧
    serializeFormData (.obj [("a", JSValue.file "f.txt" 3)]) = .ok (.obj []) := by
  refine ⟨rfl, ?_, rfl⟩
  intro h
  exact JSValue.noConfusion h

/-- C4 (amended): for every submission whose keys are pairwise
non-ancestral under the separator (no key extends another by further dot
segments) and have no leading separator, decoding succeeds, serializing the
decoded object succeeds with a flat mapping with unique keys, and that
mapping binds each string `q` exactly to the canonicalized survivor of the
value the grouping pass gives the submitted occurrences of `q`: original
field names are restored by rejoining with the separator, and a key is
dropped exactly when its decoded value does not survive JSON
canonicalization (`undefined`, or a bare `File`). -/
theorem c4_round_trip (es : List (String × FormValue)) (policy : ConvertEmptyToValue)
    (h1 : ancestorFree es = true) (h2 : noLeadingDot es = true) :
    ∃ T flat, decodeFormData es policy = .ok T ∧
      serializeFormData (.obj T) = .ok (.obj flat) ∧
      ((flat.map Prod.fst).Nodup) ∧
      ∀ q, alook q flat = (groupValues policy (valuesAt q es)).bind roundTripLeaf := by
  have hSN : ((decodePass1 es policy).map Prod.fst).Nodup := decodePass1_nodup es policy
  have hSval := decodePass1_not_obj es policy
  have hkeys : ∀ a ∈ (decodePass1 es policy).map Prod.fst, a ∈ es.map Prod.fst := by
    intro a ha
    obtain ⟨qa, hqa, hqa2⟩ := List.mem_map.mp ha
    exact hqa2 ▸ decodePass1_keys es policy qa hqa
  have hancE : ∀ a ∈ es.map Prod.fst, ∀ b ∈ es.map Prod.fst,
      dotAncestor a b = false := by
    intro a ha b hb
    obtain ⟨pa, hpa, hpa2⟩ := List.mem_map.mp ha
    obtain ⟨pb, hpb, hpb2⟩ := List.mem_map.mp hb
    rw [ancestorFree, List.all_eq_true] at h1
    have h3 := h1 pa hpa
    rw [List.all_eq_true] at h3
    have h4 := h3 pb hpb
    rw [hpa2, hpb2] at h4
    simpa using h4
  have hancS : ∀ a ∈ (decodePass1 es policy).map Prod.fst,
      ∀ b ∈ (decodePass1 es policy).map Prod.fst, dotAncestor a b = false :=
    fun a ha b hb => hancE a (hkeys a ha) b (hkeys b hb)
  have hLJ : leafJoins (decodePass1 es policy) = decodePass1 es policy :=
    leafJoins_flat _ hSval
  obtain ⟨T, hfold, hTN, hTperm⟩ := rewrite_fold_inv (decodePass1 es policy) hancS hSN
    hSval (decodePass1 es policy) (fun e he => he) hSN (decodePass1 es policy) hSN
    (by rw [hLJ])
    (fun e he => (alook_eq_some_iff_mem hSN).mpr he)
  have hdec : decodeFormData es policy = .ok T := by
    unfold decodeFormData rewritePass
    exact hfold
  have hCperm : (leafJoins (jsonCanonFields T)).Perm
      ((decodePass1 es policy).filterMap roundTripBinding) := by
    rw [leafJoins_canon]
    exact hTperm.filterMap roundTripBinding
  have hFN : (((decodePass1 es policy).filterMap roundTripBinding).map Prod.fst).Nodup :=
    List.Nodup.sublist (filterMap_rtb_fst_sublist _) hSN
  have hCN : ((leafJoins (jsonCanonFields T)).map Prod.fst).Nodup :=
    (hCperm.map Prod.fst).nodup_iff.mpr hFN
  have hhead : ∀ pv ∈ leavesF (jsonCanonFields T),
      (joinDot pv.1).data.head? ≠ some '.' := by
    intro pv hpv
    have hj : (joinDot pv.1, pv.2) ∈ leafJoins (jsonCanonFields T) := by
      rw [leafJoins]; exact List.mem_map_of_mem _ hpv
    have hj3 : joinDot pv.1 ∈
        ((decodePass1 es policy).filterMap roundTripBinding).map Prod.fst :=
      List.mem_map_of_mem Prod.fst (hCperm.mem_iff.mp hj)
    have hj5 : joinDot pv.1 ∈ es.map Prod.fst :=
      hkeys _ ((filterMap_rtb_fst_sublist _).subset hj3)
    obtain ⟨pe, hpe, hpe2⟩ := List.mem_map.mp hj5
    rw [noLeadingDot, List.all_eq_true] at h2
    have h3 := h2 pe hpe
    rw [hpe2] at h3
    simpa using h3
  have hEK : emptyKeyObjOk (jsonCanonFields T) = true :=
    emptyKeyObjOk_of_leaf_joins _ hhead
  have hflatten := flatten_top (jsonCanonFields T) [] (fileFree_canonF T) hEK
    (by simpa using (leafJoins_map_fst (jsonCanonFields T) ▸ hCN))
  have hflat2 : flattenNestedFields (jsonCanonFields T) "" [] =
      leafJoins (jsonCanonFields T) := by
    rw [hflatten, List.nil_append, leafJoins]
  refine ⟨T, leafJoins (jsonCanonFields T), hdec, ?_, hCN, ?_⟩
  · rw [show serializeFormData (JSValue.obj T) =
      .ok (JSValue.obj (flattenNestedFields (jsonCanonFields T) "" [])) from rfl, hflat2]
  · intro q
    rw [alook_perm hCperm hCN q, alook_filterMap_rtb hSN q, decodePass1_alook es policy q]

/-- Witness for `c4_round_trip` on a submission mixing a plain key, a
dotted key with an empty value, and a repeated key. -/
theorem c4_round_trip_witness :
    ancestorFree [("a", FormValue.text "x"), ("b.c", FormValue.text ""),
      ("a", FormValue.text "y")] = true ∧
    noLeadingDot [("a", FormValue.text "x"), ("b.c", FormValue.text ""),
      ("a", FormValue.text "y")] = true ∧
    ∃ T flat,
      decodeFormData [("a", FormValue.text "x"), ("b.c", FormValue.text ""),
        ("a", FormValue.text "y")] "null" = .ok T ∧
      serializeFormData (.obj T) = .ok (.obj flat) ∧
      ((flat.map Prod.fst).Nodup) ∧
      ∀ q, alook q flat =
        (groupValues "null" (valuesAt q [("a", FormValue.text "x"),
          ("b.c", FormValue.text ""), ("a", FormValue.text "y")])).bind roundTripLeaf :=
  ⟨by decide, by decide,
    c4_round_trip [("a", FormValue.text "x"), ("b.c", FormValue.text ""),
      ("a", FormValue.text "y")] "null" (by decide) (by decide)⟩

end RSA

